import Mathlib

/-!
Verification development for the eBookTools repository (`bookModifier.py`).

Filenames are modelled as `List Char`.  Each Python function that the claims
touch is translated into an executable Lean definition; regular-expression
operations are translated into direct character-list scans that reproduce the
leftmost / greedy / non-greedy semantics of the concrete patterns used by the
source.  Filesystem renames are modelled by an explicit trace of performed
`os.rename` calls plus, where failure modes matter, a list of present names.
The Python `re` module's `\s` class is modelled over the ASCII range (the
range the repository's filenames use); filenames are assumed free of newline
characters, so the regex `.` is modelled as "any character".
-/

namespace EBook

/-- Python `\s` (ASCII range): space, tab, newline, carriage return,
vertical tab, form feed. -/
def isSpaceChar (c : Char) : Bool :=
  c = ' ' || c = '\t' || c = '\n' || c = '\r' || c = '\x0b' || c = '\x0c'

/-- Python `\d` (ASCII range). -/
def isDigitChar (c : Char) : Bool := '0' ≤ c && c ≤ '9'

/-- `[A-Za-z]`. -/
def isLetterChar (c : Char) : Bool := ('a' ≤ c && c ≤ 'z') || ('A' ≤ c && c ≤ 'Z')

/-- Python `\w` (ASCII range). -/
def isWordChar (c : Char) : Bool := isLetterChar c || isDigitChar c || c = '_'

/-- The apostrophe character (written via its code point). -/
def apos : Char := Char.ofNat 39

/-- ASCII lowercasing, modelling `str.lower` on these filenames. -/
def lowerChar (c : Char) : Char :=
  if 'A' ≤ c && c ≤ 'Z' then Char.ofNat (c.toNat + 32) else c

def lowerName (s : List Char) : List Char := s.map lowerChar

/-- `s` begins with `p` (no regex involved; plain prefix test). -/
def beginsWith : List Char → List Char → Bool
  | _, [] => true
  | [], _ :: _ => false
  | c :: s, p :: ps => c = p && beginsWith s ps

/-- Python's `pat in s` substring test. -/
def hasSub : List Char → List Char → Bool
  | s, pat =>
    match s with
    | [] => beginsWith [] pat
    | _ :: rest => beginsWith s pat || hasSub rest pat

/-- Character at index `i` (filenames never contain the NUL character, which
serves as the out-of-range default). -/
def charAt (s : List Char) (i : Nat) : Char := (s[i]?).getD (Char.ofNat 0)

/-- First index `p` with `i ≤ p < i + fuel` satisfying `f`, scanning upward
(the order in which `re` tries match start positions). -/
def firstIdx (f : Nat → Bool) : Nat → Nat → Option Nat
  | _, 0 => none
  | i, fuel + 1 => if f i then some i else firstIdx f (i + 1) fuel

/-- Index of the last occurrence of `c` in `s`. -/
def lastIdxOf (c : Char) : List Char → Option Nat
  | [] => none
  | a :: rest =>
    match lastIdxOf c rest with
    | some i => some (i + 1)
    | none => if a = c then some 0 else none

/-- A Python dict insertion `d[k] = v`: overwrite in place if the key exists,
else append (Python dicts preserve first-insertion order). -/
def dictInsert (d : List (List Char × List Char)) (k v : List Char) :
    List (List Char × List Char) :=
  if d.any (fun p => p.1 == k) then d.map (fun p => if p.1 == k then (k, v) else p)
  else d ++ [(k, v)]

/-- Recognition test used by the destructive passes:
`".epub" in book.lower() or ".mobi" in book.lower()`. -/
def isEpubMobi (book : List Char) : Bool :=
  hasSub (lowerName book) (".epub".data) || hasSub (lowerName book) (".mobi".data)

def isPdf (book : List Char) : Bool := hasSub (lowerName book) (".pdf".data)

/-! ### removeMultipleSpacing (source lines 126–158) -/

/-- The `while True: if book[-k] == " ": book = book[:-k] + book[-(k-1):]`
loop of `removeMultipleSpacing`, written with a fuel argument (each
iteration removes one character, so fuel `book.length` is always enough).
Returns the resulting name and whether any character was removed (the
`spacing` flag contribution of this loop).  The source raises `IndexError`
when the name is shorter than `k`; that case is modelled as a no-op and is
not exercised by any theorem below. -/
def stripPreExtAux (k : Nat) : Nat → List Char → List Char × Bool
  | 0, book => (book, false)
  | fuel + 1, book =>
    if 1 ≤ k ∧ k ≤ book.length ∧ charAt book (book.length - k) = ' ' then
      let b2 := book.take (book.length - k) ++ book.drop (book.length - k + 1)
      ((stripPreExtAux k fuel b2).1, true)
    else (book, false)

def stripPreExt (k : Nat) (book : List Char) : List Char × Bool :=
  stripPreExtAux k book.length book

/-- `re.search(r"\s{2,}", book)`. -/
def hasDoubleSpace : List Char → Bool
  | c1 :: c2 :: rest => (isSpaceChar c1 && isSpaceChar c2) || hasDoubleSpace (c2 :: rest)
  | _ => false

/-- `re.sub(r"\s{2,}", " ", book)`: each maximal run of ≥ 2 whitespace
characters becomes a single space; an isolated whitespace character is left
as it is (fuel argument, `length` is always enough). -/
def collapseSpacesAux : Nat → List Char → List Char
  | 0, s => s
  | _ + 1, [] => []
  | _ + 1, [c] => [c]
  | fuel + 1, c1 :: c2 :: rest =>
    if isSpaceChar c1 && isSpaceChar c2 then
      ' ' :: collapseSpacesAux fuel (List.dropWhile isSpaceChar rest)
    else c1 :: collapseSpacesAux fuel (c2 :: rest)

def collapseSpaces (s : List Char) : List Char := collapseSpacesAux s.length s

/-- State threaded through a destructive batch operation: the chronological
trace of performed `os.rename(path+src, path+dst)` calls, the undo ledger
(a Python dict `new → old`), and the per-operation change counter. -/
structure OpState where
  renames : List (List Char × List Char)
  ledger  : List (List Char × List Char)
  counter : Nat
deriving Repr, DecidableEq

/-- One iteration of the `removeMultipleSpacing` loop body. -/
def rmsStep (st : OpState) (book : List Char) : OpState :=
  let old := book
  let p1 :=
    if isEpubMobi book then stripPreExt 6 book
    else if isPdf book then stripPreExt 5 book
    else (book, false)
  let b1 := p1.1
  if hasDoubleSpace b1 then
    let b2 := collapseSpaces b1
    { renames := st.renames ++ [(old, b2)],
      ledger := dictInsert st.ledger b2 old,
      counter := st.counter + 1 }
  else if p1.2 then
    { st with ledger := dictInsert st.ledger b1 old, counter := st.counter + 1 }
  else st

/-- `removeMultipleSpacing(path, books, undo)`: clears the ledger
(`undo.clear()`), then processes each book.  A rename is performed only in
the `re.search(r"\s{2,}", book)` branch of the source; the trailing
pre-extension space removal alone performs no rename yet still sets the
`spacing` flag. -/
def removeMultipleSpacing (books : List (List Char)) (s : OpState) : OpState :=
  books.foldl rmsStep { s with ledger := [] }

/-! ### fixCommaSpacing (source lines 160–186) -/

/-- `re.sub(r"\s,", ",", book)`: one left-to-right non-overlapping pass,
each whitespace character directly before a comma is removed. -/
def subSpaceComma : List Char → List Char
  | [] => []
  | [c] => [c]
  | c1 :: c2 :: rest =>
    if isSpaceChar c1 && c2 = ',' then ',' :: subSpaceComma rest
    else c1 :: subSpaceComma (c2 :: rest)

/-- `re.search(r"\s,", book)`. -/
def hasSpaceComma : List Char → Bool
  | c1 :: c2 :: rest => (isSpaceChar c1 && c2 = ',') || hasSpaceComma (c2 :: rest)
  | _ => false

/-- `re.search(r",\S", book)`. -/
def hasCommaNonSpace : List Char → Bool
  | c1 :: c2 :: rest => (c1 = ',' && !isSpaceChar c2) || hasCommaNonSpace (c2 :: rest)
  | _ => false

/-- `re.search(r",\d", book)`. -/
def hasCommaDigit : List Char → Bool
  | c1 :: c2 :: rest => (c1 = ',' && isDigitChar c2) || hasCommaDigit (c2 :: rest)
  | _ => false

/-- `re.sub(r",", ", ", book)`: every comma becomes comma-plus-space. -/
def subCommaAll : List Char → List Char
  | [] => []
  | c :: rest => if c = ',' then ',' :: ' ' :: subCommaAll rest else c :: subCommaAll rest

/-- The filename transformation computed by `fixCommaSpacing` for one book:
step 1 removes a whitespace character before each comma (if any such pair
exists); step 2 fires only when, after step 1, some comma is followed by a
non-space character and *no comma anywhere in the name* is followed by a
digit, and then inserts a space after *every* comma. -/
def fixCommaName (book : List Char) : List Char :=
  let b1 := if hasSpaceComma book then subSpaceComma book else book
  if hasCommaNonSpace b1 && !hasCommaDigit b1 then subCommaAll b1 else b1

/-- One iteration of the `fixCommaSpacing` loop body.  (When both steps fire
the source performs two renames, both from the original name; the second one
would raise `FileNotFoundError` on a real filesystem — the trace records the
calls as issued.) -/
def fixCommaStep (st : OpState) (book : List Char) : OpState :=
  let old := book
  let s1 := hasSpaceComma book
  let b1 := if s1 then subSpaceComma book else book
  let r1 : List (List Char × List Char) := if s1 then [(old, b1)] else []
  let s2 := hasCommaNonSpace b1 && !hasCommaDigit b1
  let b2 := if s2 then subCommaAll b1 else b1
  let r2 := if s2 then r1 ++ [(old, b2)] else r1
  if s1 || s2 then
    { renames := st.renames ++ r2,
      ledger := dictInsert st.ledger b2 old,
      counter := st.counter + 1 }
  else st

def fixCommaSpacing (books : List (List Char)) (s : OpState) : OpState :=
  books.foldl fixCommaStep { s with ledger := [] }

/-- The comma transformation exactly as the specification claim words it
(for comparison against `fixCommaName`): whitespace immediately preceding a
comma is removed; after each comma immediately followed by a non-space,
non-digit character exactly one space is inserted; a comma immediately
followed by a digit is left untouched; nothing else in the name changes. -/
def commaSpecFixAux : Nat → List Char → List Char
  | 0, s => s
  | _ + 1, [] => []
  | fuel + 1, c :: rest =>
    if isSpaceChar c && ((rest.dropWhile isSpaceChar).headD (Char.ofNat 0) = ',') then
      commaSpecFixAux fuel rest
    else if c = ',' then
      match rest with
      | [] => [',']
      | d :: _ =>
        if isSpaceChar d || isDigitChar d then ',' :: commaSpecFixAux fuel rest
        else ',' :: ' ' :: commaSpecFixAux fuel rest
    else c :: commaSpecFixAux fuel rest

def commaSpecFix (s : List Char) : List Char := commaSpecFixAux s.length s

/-! ### fixApostrophes (source lines 188–205) -/

/-- `re.search(r"[A-Za-z]_[A-Za-z]", book)`. -/
def hasLetterUnderscore : List Char → Bool
  | a :: b :: c :: rest =>
    (isLetterChar a && b = '_' && isLetterChar c) || hasLetterUnderscore (b :: c :: rest)
  | _ => false

/-- `re.sub(r"(?<=[A-Za-z])_(?=[A-Za-z])", "'", book)`: every underscore
with a letter on both sides becomes an apostrophe (the lookarounds are
zero-width, so consecutive replacements may share their context letter). -/
def fixApostName : List Char → List Char
  | a :: '_' :: b :: rest =>
    if isLetterChar a && isLetterChar b then a :: apos :: fixApostName (b :: rest)
    else a :: fixApostName ('_' :: b :: rest)
  | c :: rest => c :: fixApostName rest
  | [] => []

def fixApostStep (st : OpState) (book : List Char) : OpState :=
  if hasLetterUnderscore book then
    let new := fixApostName book
    { renames := st.renames ++ [(book, new)],
      ledger := dictInsert st.ledger new book,
      counter := st.counter + 1 }
  else st

def fixApostrophes (books : List (List Char)) (s : OpState) : OpState :=
  books.foldl fixApostStep { s with ledger := [] }

/-! ### removeSubstring (source lines 425–445) -/

/-- Python `book.replace(substring, "", 1)`: remove the first occurrence
(fuel argument, `length` is always enough; an empty pattern removes
nothing). -/
def removeFirstSubAux (pat : List Char) : Nat → List Char → List Char
  | 0, s => s
  | _ + 1, [] => []
  | fuel + 1, c :: rest =>
    if beginsWith (c :: rest) pat && pat ≠ [] then (c :: rest).drop pat.length
    else c :: removeFirstSubAux pat fuel rest

def removeFirstSub (pat s : List Char) : List Char := removeFirstSubAux pat s.length s

def removeSubstringStep (pat : List Char) (st : OpState) (book : List Char) : OpState :=
  if hasSub book pat then
    let new := removeFirstSub pat book
    { renames := st.renames ++ [(book, new)],
      ledger := dictInsert st.ledger new book,
      counter := st.counter + 1 }
  else st

def removeSubstring (pat : List Char) (books : List (List Char)) (s : OpState) : OpState :=
  books.foldl (removeSubstringStep pat) { s with ledger := [] }

/-! ### withoutAuthors / withAuthors (source lines 282–388)

`pattern1 = r".+?\s-\s"` (the author prefix), `pattern2 = r"_+\s.+(?=\.)"`
(the subtitle).  Filenames are assumed newline-free so regex `.` is any
character. -/

/-- The pattern `\s-\s` matches at index `p` of `s`. -/
def sepAt (s : List Char) (p : Nat) : Bool :=
  p + 2 < s.length && isSpaceChar (charAt s p) && charAt s (p + 1) = '-'
    && isSpaceChar (charAt s (p + 2))

/-- `re.sub(r".+?\s-\s", "", book, 1)`: the lazy `.+?` makes the match run
from index 0 through the first occurrence of `\s-\s` starting at an index
≥ 1 (at least one character must precede the separator); if no such
occurrence exists anywhere the name is unchanged. -/
def stripAuthors (book : List Char) : List Char :=
  match firstIdx (fun p => sepAt book p) 1 book.length with
  | some p => book.drop (p + 3)
  | none => book

/-- `", " ++ art ++ "."` — the literal text of the `(, X)\.` part of the
article tests (these test patterns use a literal space). -/
def commaArtPat (art : List Char) : List Char := ',' :: ' ' :: (art ++ ['.'])

/-- `re.search(r".+(, X)\.", book[-k:])`: inside the window of the last `k`
characters, the text `", X."` occurs at a window index ≥ 1 (the `.+` needs
at least one preceding character inside the window). -/
def artEndTest (art : List Char) (k : Nat) (book : List Char) : Bool :=
  let w := book.drop (book.length - k)
  (firstIdx (fun i => decide (1 ≤ i) && beginsWith (w.drop i) (commaArtPat art)) 0
    w.length).isSome

/-- `re.sub(",\sX\.", ".", book)` (all occurrences, left to right; the sub
patterns use `\s`, any whitespace character). -/
def subCommaArtAux (art : List Char) : Nat → List Char → List Char
  | 0, s => s
  | _ + 1, [] => []
  | fuel + 1, c :: rest =>
    if c = ',' then
      match rest with
      | [] => [',']
      | d :: rest2 =>
        if isSpaceChar d && beginsWith rest2 (art ++ ['.']) then
          '.' :: subCommaArtAux art fuel (rest2.drop (art.length + 1))
        else c :: subCommaArtAux art fuel rest
    else c :: subCommaArtAux art fuel rest

def subCommaArt (art s : List Char) : List Char := subCommaArtAux art s.length s

/-- The end (exclusive) of the run of underscores starting at `i`. -/
def runEnd (s : List Char) (i : Nat) : Nat :=
  i + ((s.drop i).takeWhile (fun c => c = '_')).length

/-- Start index of the first (leftmost) match of `pattern2 = _+\s.+(?=\.)`:
an underscore whose maximal run is followed by a whitespace character, with
at least one character between that whitespace and a later dot.  The greedy
`.+` with the `(?=\.)` lookahead extends through the character before the
*last* dot of the name. -/
def subtitleStart (s : List Char) : Option Nat :=
  match lastIdxOf '.' s with
  | none => none
  | some d =>
    firstIdx (fun i =>
      charAt s i = '_' && isSpaceChar (charAt s (runEnd s i))
        && runEnd s i + 1 < s.length && decide (runEnd s i + 2 ≤ d)) 0 s.length

/-- `re.sub(pattern2, "", s, 1)`: remove from the first match start through
the character before the last dot. -/
def stripSubtitle (s : List Char) : List Char :=
  match subtitleStart s, lastIdxOf '.' s with
  | some i, some d => s.take i ++ s.drop d
  | _, _ => s

def artA : List Char := ['A']
def artAn : List Char := ['A', 'n']
def artThe : List Char := ['T', 'h', 'e']

/-- The filename transformation computed by `withoutAuthors` for one book:
author prefix removal, trailing-article relocation to the front (English
articles only), subtitle removal, trailing-underscore strip.  (The source
raises `IndexError` on an empty result when testing `new[-1]`; an empty
result is modelled as left unchanged and is not exercised below.) -/
def woaName (book : List Char) : List Char :=
  let noauthor := stripAuthors book
  let new :=
    if artEndTest artA 9 noauthor then
      artA ++ (' ' :: stripSubtitle (subCommaArt artA noauthor))
    else if artEndTest artAn 10 noauthor then
      artAn ++ (' ' :: stripSubtitle (subCommaArt artAn noauthor))
    else if artEndTest artThe 11 noauthor then
      artThe ++ (' ' :: stripSubtitle (subCommaArt artThe noauthor))
    else stripSubtitle noauthor
  if new.getLast? = some '_' then new.dropLast else new

/-- `withoutAuthors` records `undo[new] = old` for every book,
unconditionally, and performs its renames stepwise; the trace below records
the net rename `old → new` per book (the source actually issues up to three
intermediate renames per book). -/
def withoutAuthors (books : List (List Char)) (s : OpState) : OpState :=
  books.foldl (fun st book =>
    let new := woaName book
    { renames := st.renames ++ [(book, new)],
      ledger := dictInsert st.ledger new book,
      counter := st.counter }) { s with ledger := [] }

/-- The article/window table of `renameBook` in source order: each article
with the slice width used by its `re.search(r".+(, X)\.", book[-k:])` test. -/
def artKTable : List (List Char × Nat) :=
  [(artA, 9), (artAn, 10), (artThe, 11),
   (['E', 'l'], 10), (['L', 'a'], 10), (['L', 'o', 's'], 11), (['L', 'a', 's'], 11),
   (['U', 'n'], 10), (['U', 'n', 'a'], 11), (['U', 'n', 'o', 's'], 12),
   (['U', 'n', 'a', 's'], 12),
   (['L', 'e'], 10), (['L', apos], 10), (['L', 'e', 's'], 11), (['U', 'n', 'e'], 11),
   (['D', 'e', 's'], 11),
   (['D', 'e', 'r'], 11), (['D', 'i', 'e'], 11), (['D', 'a', 's'], 11),
   (['E', 'i', 'n'], 11), (['E', 'i', 'n', 'e'], 12)]

/-- `re.sub("\s-\s", " - X ", s, 1)`: replace the first `\s-\s` occurrence
(from index 0 here — no leading `.+?`) by `" - X "`. -/
def insertArtAfterSep (art s : List Char) : List Char :=
  match firstIdx (fun p => sepAt s p) 0 s.length with
  | some p => s.take p ++ (' ' :: '-' :: ' ' :: (art ++ [' '])) ++ s.drop (p + 3)
  | none => s

/-- `renameBook(book, pattern)` (source lines 355–388): the first matching
article test in table order wins; the comma-article text is collapsed to a
dot, the subtitle removed, and the article re-inserted after the first
`" - "` separator. -/
def renameBook (book : List Char) : List Char :=
  match artKTable.find? (fun p => artEndTest p.1 p.2 book) with
  | some p => insertArtAfterSep p.1 (stripSubtitle (subCommaArt p.1 book))
  | none => stripSubtitle book

/-- Python `s.replace(pat, repl)` — all occurrences, left to right. -/
def replaceAllSubAux (pat repl : List Char) : Nat → List Char → List Char
  | 0, s => s
  | _ + 1, [] => []
  | fuel + 1, c :: rest =>
    if beginsWith (c :: rest) pat && pat ≠ [] then
      repl ++ replaceAllSubAux pat repl fuel ((c :: rest).drop pat.length)
    else c :: replaceAllSubAux pat repl fuel rest

def replaceAllSub (pat repl s : List Char) : List Char :=
  replaceAllSubAux pat repl s.length s

/-- The new name `withAuthors` proposes for one book (the `to_rename`
computation, including the `.kepub` special case, which strips every
`".kepub"` occurrence before and re-adds it after via `str.replace`). -/
def waProposed (book : List Char) : List Char :=
  if hasSub book (".kepub".data) then
    replaceAllSub (".epub".data) (".kepub.epub".data)
      (renameBook (replaceAllSub (".kepub".data) [] book))
  else renameBook book

/-- State for `withAuthors`: the present filenames (for the
`FileExistsError` fallback), the rename trace, the ledger, and the stream of
user decisions consumed on conflicts (`none` = keep the old name, `some n` =
rename to the typed name `n`). -/
structure WAState where
  fs : List (List Char)
  renames : List (List Char × List Char)
  ledger : List (List Char × List Char)
  oracle : List (Option (List Char))
deriving Repr, DecidableEq

/-- `os.rename` inside `withAuthors`: fails (with `FileExistsError`) iff the
target name is already present and differs from the source. -/
def fsRenameChecked (fs : List (List Char)) (src dst : List Char) :
    Option (List (List Char)) :=
  if dst ∈ fs && dst ≠ src then none else some ((fs.erase src) ++ [dst])

/-- The second loop of `withAuthors` (`for old, new in to_rename.items()`).
The `new[-1] == "_"` branch renames without a guard; its failure (and the
unguarded rename after a typed new name) would crash the source — the model
lets the trace record the call as issued. -/
def waApply (st : WAState) (p : List Char × List Char) : WAState :=
  let old := p.1
  let new := p.2
  if new.getLast? = some '_' then
    { st with
      ledger := dictInsert st.ledger new.dropLast old,
      renames := st.renames ++ [(old, new.dropLast)],
      fs := (st.fs.erase old) ++ [new.dropLast] }
  else
    let st1 := { st with ledger := dictInsert st.ledger new old }
    match fsRenameChecked st1.fs old new with
    | some fs2 => { st1 with renames := st1.renames ++ [(old, new)], fs := fs2 }
    | none =>
      match st1.oracle with
      | some n :: rest =>
        { fs := (st1.fs.erase old) ++ [n],
          renames := st1.renames ++ [(old, n)],
          ledger := dictInsert st1.ledger n old,
          oracle := rest }
      | none :: rest => { st1 with oracle := rest }
      | [] => st1

/-- `withAuthors(path, books, undo)`: clears the ledger, computes the
`to_rename` dict, then applies it. -/
def withAuthors (books : List (List Char)) (fs : List (List Char))
    (oracle : List (Option (List Char)))
    (ledger0 : List (List Char × List Char)) : WAState :=
  let toRename := books.foldl (fun d book => dictInsert d book (waProposed book)) []
  toRename.foldl waApply { fs := fs, renames := [], ledger := [], oracle := oracle }

/-! ### restoreAuthors (source lines 390–422) -/

/-- `re.findall(r"(.+)\.", book1)[0]`: the first (and only) match captures
everything up to the last dot, which must sit at index ≥ 1.  `none` models
the `IndexError` the source raises when the list is empty. -/
def titleBeforeLastDot (book : List Char) : Option (List Char) :=
  match lastIdxOf '.' book with
  | some d => if 1 ≤ d then some (book.take d) else none
  | none => none

/-- `re.findall(r"\.(\w+)", book1)[0]`: the word characters after the first
dot that is directly followed by a word character. -/
def extAfterDot : List Char → Option (List Char)
  | [] => none
  | '.' :: c :: rest =>
    if isWordChar c then some (c :: rest.takeWhile isWordChar)
    else extAfterDot (c :: rest)
  | _ :: rest => extAfterDot rest

/-- `re.findall(r"\s-\s(.+)\.", book2)`: first separator position from
which a greedy `(.+)` can reach a dot; the group runs from after the
separator through the character before the last dot of the name.  An empty
findall result is `none`. -/
def titleAfterSep (book : List Char) : Option (List Char) :=
  match lastIdxOf '.' book with
  | none => none
  | some d =>
    match firstIdx (fun p => sepAt book p && decide (p + 4 ≤ d)) 0 book.length with
    | some p => some ((book.take d).drop (p + 3))
    | none => none

/-- Recognition test of the comparison functions:
`re.search(r"\.epub", b.lower()) or r"\.mobi" or r"\.pdf"`. -/
def recognized3 (book : List Char) : Bool := isEpubMobi book || isPdf book

/-- State for `restoreAuthors`: rename trace, ledger, counter, the
unconditional "Author(s) data not found" reports, the persistent `title2`
variable (`none` models both "never assigned" and an empty findall result —
the source would raise `NameError` in the former case if compared, a case no
theorem below exercises), and an error flag modelling an `IndexError` from
`title1[0]`/`extension1[0]` on a dotless target name (which aborts the
operation). -/
structure RAState where
  renames : List (List Char × List Char)
  ledger : List (List Char × List Char)
  counter : Nat
  notFound : List (List Char)
  t2 : Option (List Char)
  err : Bool
deriving Repr, DecidableEq

/-- The inner `for book2 in books2` loop with its `break`: returns the
updated `title2` variable and, when a match fires, the matched `book2`. -/
def raInner (book1 : List Char) (t1 : List Char) :
    Option (List Char) → List (List Char) → Option (List Char) × Option (List Char)
  | t2, [] => (t2, none)
  | t2, book2 :: rest =>
    let t2' := if recognized3 book1 then titleAfterSep book2 else t2
    match t2' with
    | some t2v => if t1 = t2v then (t2', some book2) else raInner book1 t1 t2' rest
    | none => raInner book1 t1 t2' rest

def raStep (books2 : List (List Char)) (st : RAState) (book1 : List Char) : RAState :=
  if st.err then st
  else
    match titleBeforeLastDot book1, extAfterDot book1 with
    | some t1, some e1 =>
      let r := raInner book1 t1 st.t2 books2
      match r.2 with
      | some book2 =>
        match lastIdxOf '.' book2 with
        | some d =>
          let new := book2.take (d + 1) ++ e1
          { st with
            renames := st.renames ++ [(book1, new)],
            ledger := dictInsert st.ledger new book1,
            counter := st.counter + 1,
            notFound := st.notFound ++ [book1],
            t2 := r.1 }
        | none => { st with err := true, t2 := r.1 }
      | none => { st with notFound := st.notFound ++ [book1], t2 := r.1 }
    | _, _ => { st with err := true }

/-- `restoreAuthors(path, books, undo)`: clears the ledger (discarding
`ledger0`), then for each target book scans the reference listing; the
`"Author(s) data not found"` report is issued after the inner loop
*unconditionally* (source line 421), match or no match. -/
def restoreAuthors (books books2 : List (List Char))
    (ledger0 : List (List Char × List Char)) : RAState :=
  books.foldl (raStep books2) ⟨[], [], 0, [], none, false⟩

/-! ### restoreOld (source lines 447–464) -/

/-- `os.rename(path+new, path+old)` as used by `restoreOld`: fails with
`FileNotFoundError` iff the source name is absent (the only error mode the
source handles; see spec §7 — a same-named collision cannot arise from a
ledger produced by a completed batch on the directory it renamed). -/
def fsRenameRestore (fs : List (List Char)) (src dst : List Char) :
    Option (List (List Char)) :=
  if src ∈ fs then some ((fs.erase src) ++ [dst]) else none

structure RestoreState where
  fs : List (List Char)
  ledger : List (List Char × List Char)
  restoredCount : Nat
  missing : List (List Char)
deriving Repr, DecidableEq

def restoreStep (st : RestoreState) (p : List Char × List Char) : RestoreState :=
  match fsRenameRestore st.fs p.1 p.2 with
  | some fs2 => { st with fs := fs2, restoredCount := st.restoredCount + 1 }
  | none => { st with missing := st.missing ++ [p.1] }

/-- `restoreOld(path, undo)`: iterates the ledger in insertion order,
renaming `new` back to `old`, counting successes and reporting misses; the
ledger itself is never written to. -/
def restoreOld (undoL : List (List Char × List Char)) (fs : List (List Char)) :
    RestoreState :=
  undoL.foldl restoreStep ⟨fs, undoL, 0, []⟩

/-! ### compareTwoDirs (source lines 466–518) -/

/-- `re.sub(r"\.\w+", "", book)`: every maximal dot-plus-word-characters
group is removed (this is how the comparison functions form a "base name").
Fuel argument; `length` is always enough. -/
def stripDotWordsAux : Nat → List Char → List Char
  | 0, s => s
  | _ + 1, [] => []
  | fuel + 1, c :: rest =>
    if c = '.' then
      match rest with
      | [] => ['.']
      | d :: rest2 =>
        if isWordChar d then stripDotWordsAux fuel (rest2.dropWhile isWordChar)
        else '.' :: stripDotWordsAux fuel rest
    else c :: stripDotWordsAux fuel rest

def stripDotWords (s : List Char) : List Char := stripDotWordsAux s.length s

/-- `difflib.SequenceMatcher(None, a, b).quick_ratio()`: with
`M = Σ_c min(count_a c, count_b c)` the ratio is `2M / (|a| + |b|)`, and `1`
when both strings are empty. -/
def matchTotal (a b : List Char) : Nat :=
  (a.dedup.map (fun c => min (a.count c) (b.count c))).sum

def ratioQ (a b : List Char) : ℚ :=
  if a.length + b.length = 0 then 1
  else (2 * matchTotal a b : ℚ) / (a.length + b.length)

/-- The inner `for book2 in books2` loop of `compareTwoDirs` for one
first-directory base name `b1`: returns (appended to `identical`, the
`similar` pairs contributed, the final `not_found` flag).  A ratio of
exactly 1 appends to `identical` and breaks; a ratio in `[0.9, 1)` appends
the pair to `similar`; either clears `not_found`. -/
def ctdInner (b1 : List Char) : List (List Char) →
    Bool × List (List Char × List Char) × Bool
  | [] => (false, [], true)
  | book2 :: rest =>
    if recognized3 book2 then
      let b2 := stripDotWords book2
      let r := ratioQ b1 b2
      if r = 1 then (true, [], false)
      else if 9 / 10 ≤ r then
        let res := ctdInner b1 rest
        (res.1, (b1, b2) :: res.2.1, false)
      else ctdInner b1 rest
    else ctdInner b1 rest

structure CTDOut where
  identical : List (List Char)
  similar : List (List Char × List Char)
  different : List (List Char)
deriving Repr, DecidableEq

def ctdStep (books2 : List (List Char)) (acc : CTDOut) (book1 : List Char) : CTDOut :=
  if recognized3 book1 then
    let b1 := stripDotWords book1
    let r := ctdInner b1 books2
    { identical := acc.identical ++ (if r.1 then [b1] else []),
      similar := acc.similar ++ r.2.1,
      different := acc.different ++ (if r.2.2 then [b1] else []) }
  else acc

/-- `compareTwoDirs(path, books)` output lists (first-directory entries with
unrecognized extensions are skipped by the `continue`). -/
def compareTwoDirs (books books2 : List (List Char)) : CTDOut :=
  books.foldl (ctdStep books2) ⟨[], [], []⟩

/-! ### compareSize (source lines 551–605) -/

/-- Python string `<` (lexicographic by code point). -/
def lexLt : List Char → List Char → Bool
  | [], [] => false
  | [], _ :: _ => true
  | _ :: _, [] => false
  | a :: as', b :: bs => if a < b then true else if b < a then false else lexLt as' bs

/-- Result of the inline binary search of `compareSize` for one
first-directory book. -/
inductive SizeCmpRes where
  /-- Base names matched and the size condition held: the reported
  `(size1, size2, base-name)` triple (the percentage column is display
  formatting and not modelled). -/
  | report (size1 size2 : Nat) (base : List Char)
  /-- The loop ended via `lower > upper` or via a size-condition failure. -/
  | noReport
  /-- `books2[(lower+upper)//2]` with the index out of range: the
  `IndexError` the source raises. -/
  | idxErr
  /-- The stale-`b2` comparison ran before `b2` was ever assigned: the
  `NameError` the source raises. -/
  | nameErr
deriving Repr, DecidableEq

/-- The `while True` binary-search loop of `compareSize` for one book, with
`b1` the lowercased stripped base of `book1` and `size1` its byte size.
`b2prev` is the function-level `b2` variable (assigned only when a probed
entry has a recognized extension, and consulted stale otherwise).  Bounds
are integers: `upper` starts at `len(books2)` and may reach `-1`; Python's
floor division `//` is `Int.ediv` for the positive divisor 2.  (A negative
probe index cannot arise from the entry point `lower = 0`; the `.toNat`
coercion is only exercised at nonnegative probes.) -/
def sizeSearchAux (books2 : List (List Char)) (sz2 : List Char → Nat)
    (b1 : List Char) (size1 : Nat) (share : ℚ) :
    Nat → Option (List Char) → Int → Int → SizeCmpRes
  | 0, _, _, _ => .noReport
  | fuel + 1, b2prev, lower, upper =>
    if lower > upper then .noReport
    else
      let mid := (lower + upper) / 2
      match books2.get? mid.toNat with
      | none => .idxErr
      | some book2 =>
        if recognized3 book2 then
          let b2 := lowerName (stripDotWords book2)
          if b1 = b2 then
            if size1 > sz2 book2 ∧ ((size1 : ℚ) - sz2 book2 ≥ size1 * share) then
              .report size1 (sz2 book2) b1
            else .noReport
          else if lexLt b1 b2 then
            sizeSearchAux books2 sz2 b1 size1 share fuel (some b2) lower (mid - 1)
          else sizeSearchAux books2 sz2 b1 size1 share fuel (some b2) (mid + 1) upper
        else
          match b2prev with
          | none => .nameErr
          | some b2 =>
            if lexLt b1 b2 then
              sizeSearchAux books2 sz2 b1 size1 share fuel b2prev lower (mid - 1)
            else sizeSearchAux books2 sz2 b1 size1 share fuel b2prev (mid + 1) upper

/-- Entry point of the loop: `lower = 0`, `upper = len(books2)`.  Each
iteration strictly shrinks `upper + 1 - lower`, which starts at
`len(books2) + 1`, so fuel `len(books2) + 2` can never run out. -/
def sizeSearch (books2 : List (List Char)) (sz2 : List Char → Nat)
    (b1 : List Char) (size1 : Nat) (share : ℚ) (b2prev : Option (List Char)) :
    SizeCmpRes :=
  sizeSearchAux books2 sz2 b1 size1 share (books2.length + 2) b2prev 0 books2.length

/-- The reported pairs of `compareSize` over all first-directory books, in
scan order (the final `identical.sort(reverse=True)` permutes but never
adds or removes reports; `b2prev` threads across books as in the source).
An error result aborts the operation. -/
def compareSizeReports (books books2 : List (List Char))
    (sz1 sz2 : List Char → Nat) (share : ℚ) : List (Nat × Nat × List Char) :=
  (books.foldl (fun acc book1 =>
    match acc with
    | (reports, b2prev) =>
      if recognized3 book1 then
        let b1 := lowerName (stripDotWords book1)
        match sizeSearch books2 sz2 b1 (sz1 book1) share b2prev with
        | .report s1 s2 base => (reports ++ [(s1, s2, base)], b2prev)
        | _ => (reports, b2prev)
      else (reports, b2prev)) (([] : List (Nat × Nat × List Char)), none)).1

/-! ### The filename grammar of the specification (§4.1, §8)

`<Authors> - <Title>[_ <Subtitle>][, <Article>].<ext>`, formalised for claim
C8.  The side conditions make the parse unambiguous: the author segment is
everything before the *first* `" - "` separator (so neither segment may
itself contain or recreate one), the title may not contain the underscore
that introduces a subtitle, the article comes from the spec's article
table, and the extension is one of the four recognized e-book extensions
that every working set is filtered to (`getBooks`, source lines 27–40). -/

structure GrammarParts where
  authors : List Char
  title : List Char
  subtitle : Option (List Char)
  article : Option (List Char)
  ext : List Char
deriving Repr, DecidableEq

def subtitlePart : Option (List Char) → List Char
  | none => []
  | some sub => '_' :: ' ' :: sub

def articlePart : Option (List Char) → List Char
  | none => []
  | some a => ',' :: ' ' :: a

def assemble (g : GrammarParts) : List Char :=
  g.authors ++ ' ' :: '-' :: ' ' ::
    (g.title ++ subtitlePart g.subtitle ++ articlePart g.article ++ '.' :: g.ext)

/-- The spec's article table (§3 ArticleTable / §4.1). -/
def articleTable : List (List Char) := artKTable.map (fun p => p.1)

def fourExts : List (List Char) :=
  [("pdf".data), ("azw".data), ("epub".data), ("mobi".data)]

/-- `\s-\s` occurs somewhere in `s`. -/
def hasSepPat (s : List Char) : Bool :=
  (firstIdx (fun p => sepAt s p) 0 s.length).isSome

/-- `s` ends with a whitespace character directly followed by `'-'`. -/
def endsSpaceDash (s : List Char) : Bool :=
  2 ≤ s.length && isSpaceChar (charAt s (s.length - 2)) && charAt s (s.length - 1) = '-'

/-- `s` starts with `'-'` directly followed by a whitespace character. -/
def startsDashSpace (s : List Char) : Bool :=
  charAt s 0 = '-' && isSpaceChar (charAt s 1)

/-- `s` matches `,\sX\.` at its head (the comma-article-dot text, with any
whitespace character after the comma — the class used by the sub patterns,
a superset of the literal space used by the search patterns). -/
def wsCommaArtHead (X : List Char) : List Char → Bool
  | ',' :: d :: r2 => isSpaceChar d && beginsWith r2 (X ++ ['.'])
  | _ => false

/-- `,\sX\.` occurs somewhere in `s`. -/
def hasCommaArt (X s : List Char) : Bool :=
  (firstIdx (fun p => wsCommaArtHead X (s.drop p)) 0 s.length).isSome

/-- `x` matches the grammar with parts `g` (unambiguous-parse side
conditions included). -/
def wellFormed (g : GrammarParts) : Bool :=
  g.authors ≠ [] && g.title ≠ [] && fourExts.contains g.ext
    && !hasSepPat g.authors && !endsSpaceDash g.authors
    && !hasSepPat g.title && !startsDashSpace g.title
    && !g.title.contains '_'
    && (match g.article with | none => true | some a => articleTable.contains a)
    && (match g.subtitle with | none => true | some sub => sub ≠ [])

def engArts : List (List Char) := [artA, artAn, artThe]

/-- The extra conditions of the amended claim C8: neither the title nor the
subtitle segment contains an English comma-article token (`", A"`, `", An"`,
`", The"`, with any whitespace after the comma) followed by a dot, nor ends
with one. -/
def amendedOk (g : GrammarParts) : Bool :=
  engArts.all (fun X =>
    !hasCommaArt X (g.title ++ ['.'])
      && (match g.subtitle with
          | none => true
          | some sub => !hasCommaArt X (sub ++ ['.'])))

/-! ## Helper lemmas -/

theorem charAt_append_left {a b : List Char} {p : Nat} (h : p < a.length) :
    charAt (a ++ b) p = charAt a p := by
  simp [charAt, List.getElem?_append, h]

theorem charAt_append_right (a b : List Char) (i : Nat) :
    charAt (a ++ b) (a.length + i) = charAt b i := by
  simp [charAt, List.getElem?_append_right (Nat.le_add_right a.length i),
    Nat.add_sub_cancel_left]

theorem charAt_cons_succ (c : Char) (s : List Char) (i : Nat) :
    charAt (c :: s) (i + 1) = charAt s i := by
  simp [charAt]

theorem charAt_cons_zero (c : Char) (s : List Char) : charAt (c :: s) 0 = c := by
  simp [charAt]

theorem charAt_mem {s : List Char} {p : Nat} (h : p < s.length) : charAt s p ∈ s := by
  unfold charAt
  rw [List.getElem?_eq_getElem h]
  exact List.getElem_mem h

theorem charAt_eq_of_not_mem {s : List Char} {c : Char} (h : c ∉ s) {p : Nat}
    (hp : p < s.length) : charAt s p ≠ c := fun hc => h (hc ▸ charAt_mem hp)

theorem drop_eq_charAt_cons {s : List Char} {p : Nat} (h : p < s.length) :
    s.drop p = charAt s p :: s.drop (p + 1) := by
  rw [List.drop_eq_getElem_cons h]
  congr 1
  simp [charAt, List.getElem?_eq_getElem h]

theorem drop_append_add (a s : List Char) (p : Nat) :
    (a ++ s).drop (a.length + p) = s.drop p := by
  rw [List.drop_add, List.drop_left]

theorem beginsWith_pointwise {s pat : List Char} :
    beginsWith s pat = true ↔
      pat.length ≤ s.length ∧ ∀ j < pat.length, charAt s j = charAt pat j := by
  induction pat generalizing s with
  | nil => simp [beginsWith]
  | cons p ps ih =>
    cases s with
    | nil => simp [beginsWith]
    | cons c cs =>
      simp only [beginsWith, Bool.and_eq_true, decide_eq_true_eq, ih,
        List.length_cons]
      constructor
      · rintro ⟨hcp, hlen, hall⟩
        refine ⟨by omega, ?_⟩
        intro j hj
        cases j with
        | zero => simpa [charAt_cons_zero] using hcp
        | succ j =>
          rw [charAt_cons_succ, charAt_cons_succ]
          exact hall j (by omega)
      · rintro ⟨hlen, hall⟩
        refine ⟨?_, by omega, ?_⟩
        · have := hall 0 (by omega)
          rwa [charAt_cons_zero, charAt_cons_zero] at this
        · intro j hj
          have := hall (j + 1) (by omega)
          rwa [charAt_cons_succ, charAt_cons_succ] at this

theorem beginsWith_append_self (pat rest : List Char) :
    beginsWith (pat ++ rest) pat = true := by
  rw [beginsWith_pointwise]
  constructor
  · simp
  · intro j hj
    exact charAt_append_left hj

theorem firstIdx_isSome_iff (f : Nat → Bool) (i fuel : Nat) :
    (firstIdx f i fuel).isSome = true ↔ ∃ p, i ≤ p ∧ p < i + fuel ∧ f p = true := by
  induction fuel generalizing i with
  | zero => simp [firstIdx]; omega
  | succ n ih =>
    simp only [firstIdx]
    by_cases h : f i
    · simp only [h, if_true, Option.isSome_some, true_iff]
      exact ⟨i, Nat.le_refl i, by omega, h⟩
    · simp only [h, if_false, Bool.false_eq_true, ih]
      constructor
      · rintro ⟨p, hp1, hp2, hp3⟩
        exact ⟨p, by omega, by omega, hp3⟩
      · rintro ⟨p, hp1, hp2, hp3⟩
        refine ⟨p, ?_, by omega, hp3⟩
        rcases Nat.eq_or_lt_of_le hp1 with rfl | h2
        · exact absurd hp3 (by simp [h])
        · omega

theorem firstIdx_eq_none_iff (f : Nat → Bool) (i fuel : Nat) :
    firstIdx f i fuel = none ↔ ∀ p, i ≤ p → p < i + fuel → f p = false := by
  rw [← Option.not_isSome_iff_eq_none]
  simp only [firstIdx_isSome_iff, not_exists]
  constructor
  · intro h p h1 h2
    have := h p
    simp only [h1, h2, true_and, not_true_eq_false] at this
    simpa using by
      by_contra hc
      exact this (by simpa using hc)
  · intro h p
    rintro ⟨h1, h2, h3⟩
    rw [h p h1 h2] at h3
    exact Bool.false_ne_true h3

theorem firstIdx_eq_some {f : Nat → Bool} {i fuel p : Nat}
    (hi : i ≤ p) (hp : p < i + fuel) (hf : f p = true)
    (hmin : ∀ q, i ≤ q → q < p → f q = false) : firstIdx f i fuel = some p := by
  induction fuel generalizing i with
  | zero => omega
  | succ n ih =>
    simp only [firstIdx]
    rcases Nat.eq_or_lt_of_le hi with rfl | hlt
    · simp [hf]
    · rw [hmin i (Nat.le_refl i) hlt]
      simp only [Bool.false_eq_true, if_false]
      exact ih (by omega) (by omega) (fun q hq1 hq2 => hmin q (by omega) hq2)

/-! ## Claim theorems -/

/-- **C1** (code_bug).  The claim says a `(new → old)` pair is in the undo
ledger at the end of a destructive batch operation only if the rename of
`old` to `new` was actually performed and succeeded.  The spacing-cleanup
pass violates this: on the single file `"Name .epub"`, whose only defect is
the pre-extension space, the source sets the `spacing` flag in the
trailing-space loop without performing any rename (`os.rename` is only
reached inside the `\s{2,}` branch, source line 152), yet records
`undo["Name.epub"] = "Name .epub"`.  The resulting ledger holds a pair for
which no rename call was ever issued. -/
theorem claim_C1_ledger_entry_without_rename :
    (removeMultipleSpacing [("Name .epub".data)] ⟨[], [], 0⟩).renames = [] ∧
      (("Name.epub".data), ("Name .epub".data))
        ∈ (removeMultipleSpacing [("Name .epub".data)] ⟨[], [], 0⟩).ledger := by
  decide

/-- **C2** (code_bug).  The claim (and the spec's example
`"Name .epub"` → `"Name.epub"`) says the spacing-cleanup pass renames such a
file on disk, records `ledger[new] = old` and counts it as changed.  The
source records the ledger entry and counts the change but never calls
`os.rename` for a file whose only defect is the trailing pre-extension
space: the rename trace stays empty while ledger and counter are updated,
so the file keeps its old name on disk. -/
theorem claim_C2_trailing_space_not_renamed :
    removeMultipleSpacing [("Name .epub".data)] ⟨[], [], 0⟩
      = ⟨[], [(("Name.epub".data), ("Name .epub".data))], 1⟩ := by
  decide

/-- **C9** (code_bug).  The claim says a "not found" report is issued
exactly when no reference entry's extracted title equals the target's base
name, and that a successful match suppresses the report.  In the source the
`print("Author(s) data not found for", book1)` sits at the outer-loop level
(line 421), after the inner loop, so it runs unconditionally: on target
`"Code.epub"` with reference `"Petzold, Charles - Code.epub"` the match
succeeds, the file is renamed with its own extension kept, the rename is
recorded in the ledger — and the not-found report is still issued. -/
theorem claim_C9_notfound_despite_match :
    restoreAuthors [("Code.epub".data)] [("Petzold, Charles - Code.epub".data)] []
      = ⟨[(("Code.epub".data), ("Petzold, Charles - Code.epub".data))],
         [(("Petzold, Charles - Code.epub".data), ("Code.epub".data))],
         1, [("Code.epub".data)], some ("Code".data), false⟩ := by
  decide

/-- **C7 counterexample**.  On `"a, b,c.pdf"` the claim's transformation
(insert one space only after commas followed by a non-space non-digit,
change nothing else) yields `"a, b, c.pdf"`, but the source's
`re.sub(r",", ", ")` fires for *every* comma once any comma is followed by
a non-space and none by a digit, producing a double space after the first
comma: `"a,  b, c.pdf"`. -/
theorem claim_C7_counterexample :
    fixCommaName ("a, b,c.pdf".data) ≠ commaSpecFix ("a, b,c.pdf".data) ∧
      fixCommaName ("a, b,c.pdf".data) = ("a,  b, c.pdf".data) ∧
      commaSpecFix ("a, b,c.pdf".data) = ("a, b, c.pdf".data) := by
  decide

/-- **C7** (corrected).  What the punctuation-cleanup pass actually does:
one pass removes a single whitespace character directly before each comma;
then, *only if* some comma is followed by a non-space character and *no*
comma anywhere in the name is followed by a digit, a space is inserted
after every comma (including commas already followed by a space).  The two
spec examples hold; a name containing any digit-adjacent comma gets no
insertion at all (global guard); the every-comma insertion is witnessed by
`"a, b,c.pdf"` becoming `"a,  b, c.pdf"`. -/
theorem claim_C7_amended :
    fixCommaName ("Smith , John.pdf".data) = ("Smith, John.pdf".data) ∧
      fixCommaName ("10,000 Leagues.pdf".data) = ("10,000 Leagues.pdf".data) ∧
      (∀ s : List Char,
        hasCommaDigit (if hasSpaceComma s then subSpaceComma s else s) = true →
        fixCommaName s = (if hasSpaceComma s then subSpaceComma s else s)) ∧
      fixCommaName ("a, b,c.pdf".data) = ("a,  b, c.pdf".data) := by
  refine ⟨by decide, by decide, ?_, by decide⟩
  intro s h
  unfold fixCommaName
  simp only [h, Bool.not_true, Bool.and_false, Bool.false_eq_true, if_false]

theorem claim_C7_amended_witness :
    fixCommaName ("x,1 y,z.pdf".data) = ("x,1 y,z.pdf".data) := by
  have h := claim_C7_amended.2.2.1 ("x,1 y,z.pdf".data) (by decide)
  simpa using h

theorem restore_ledger_const (l : List (List Char × List Char)) :
    ∀ st : RestoreState, (l.foldl restoreStep st).ledger = st.ledger := by
  induction l with
  | nil => intro st; rfl
  | cons p ps ih =>
    intro st
    rw [List.foldl_cons, ih]
    unfold restoreStep
    cases fsRenameRestore st.fs p.1 p.2 <;> rfl

theorem restore_attempts_all (l : List (List Char × List Char)) :
    ∀ st : RestoreState,
      (l.foldl restoreStep st).restoredCount + (l.foldl restoreStep st).missing.length
        = st.restoredCount + st.missing.length + l.length := by
  induction l with
  | nil => intro st; simp
  | cons p ps ih =>
    intro st
    rw [List.foldl_cons, ih]
    unfold restoreStep
    cases fsRenameRestore st.fs p.1 p.2 <;> simp <;> omega

/-- **C3** (confirmed).  `restoreOld` attempts every `(new, old)` pair:
each pair either succeeds (counted) or is reported missing (skipped), so
count + misses = ledger size and no failure aborts the rest; the ledger is
never written to; and for a single renaming `A → B`, the first restore
renames `B` back to `A` with count 1 while an immediately repeated restore
finds no `B`, reports it, and counts 0. -/
theorem claim_C3_restore :
    (∀ (undoL : List (List Char × List Char)) (fs : List (List Char)),
        (restoreOld undoL fs).ledger = undoL) ∧
      (∀ (undoL : List (List Char × List Char)) (fs : List (List Char)),
        (restoreOld undoL fs).restoredCount + (restoreOld undoL fs).missing.length
          = undoL.length) ∧
      (∀ A B : List Char, A ≠ B →
        restoreOld [(B, A)] [B] = ⟨[A], [(B, A)], 1, []⟩ ∧
          restoreOld [(B, A)] [A] = ⟨[A], [(B, A)], 0, [B]⟩) := by
  refine ⟨fun undoL fs => restore_ledger_const undoL _, ?_, ?_⟩
  · intro undoL fs
    have := restore_attempts_all undoL ⟨fs, undoL, 0, []⟩
    simpa [restoreOld] using this
  · intro A B h
    constructor
    · simp [restoreOld, restoreStep, fsRenameRestore, List.erase_cons_head]
    · have h' : B ≠ A := fun hc => h hc.symm
      simp [restoreOld, restoreStep, fsRenameRestore, h']

theorem claim_C3_restore_witness :
    restoreOld [(("B.epub".data), ("A.epub".data))] [("B.epub".data)]
        = ⟨[("A.epub".data)], [(("B.epub".data), ("A.epub".data))], 1, []⟩ ∧
      restoreOld [(("B.epub".data), ("A.epub".data))] [("A.epub".data)]
        = ⟨[("A.epub".data)], [(("B.epub".data), ("A.epub".data))], 0,
           [("B.epub".data)]⟩ :=
  claim_C3_restore.2.2 ("A.epub".data) ("B.epub".data) (by decide)

theorem foldl_ledger_congr {step : OpState → List Char → OpState}
    (hstep : ∀ st1 st2 b, st1.ledger = st2.ledger →
      (step st1 b).ledger = (step st2 b).ledger) :
    ∀ (books : List (List Char)) (st1 st2 : OpState), st1.ledger = st2.ledger →
      (books.foldl step st1).ledger = (books.foldl step st2).ledger := by
  intro books
  induction books with
  | nil => intro st1 st2 h; exact h
  | cons b bs ih => intro st1 st2 h; exact ih _ _ (hstep _ _ _ h)

theorem rmsStep_ledger_congr : ∀ (st1 st2 : OpState) (b : List Char),
    st1.ledger = st2.ledger → (rmsStep st1 b).ledger = (rmsStep st2 b).ledger := by
  intro st1 st2 b h
  unfold rmsStep
  simp [apply_ite OpState.ledger, h]

theorem fixCommaStep_ledger_congr : ∀ (st1 st2 : OpState) (b : List Char),
    st1.ledger = st2.ledger →
      (fixCommaStep st1 b).ledger = (fixCommaStep st2 b).ledger := by
  intro st1 st2 b h
  unfold fixCommaStep
  simp [apply_ite OpState.ledger, h]

theorem fixApostStep_ledger_congr : ∀ (st1 st2 : OpState) (b : List Char),
    st1.ledger = st2.ledger →
      (fixApostStep st1 b).ledger = (fixApostStep st2 b).ledger := by
  intro st1 st2 b h
  unfold fixApostStep
  simp [apply_ite OpState.ledger, h]

theorem removeSubstringStep_ledger_congr (pat : List Char) :
    ∀ (st1 st2 : OpState) (b : List Char), st1.ledger = st2.ledger →
      (removeSubstringStep pat st1 b).ledger = (removeSubstringStep pat st2 b).ledger := by
  intro st1 st2 b h
  unfold removeSubstringStep
  simp [apply_ite OpState.ledger, h]

/-- **C4** (confirmed).  Every destructive operation clears the undo ledger
before recording anything: the final ledger of each of the seven operations
is independent of the ledger it was handed (so it only ever holds pairs
produced by that operation), and a pass that changes zero files leaves the
ledger empty, discarding the previous operation's undo state. -/
theorem claim_C4_ledger_cleared :
    (∀ (books : List (List Char)) (s1 s2 : OpState),
        (removeMultipleSpacing books s1).ledger = (removeMultipleSpacing books s2).ledger) ∧
      (∀ (books : List (List Char)) (s1 s2 : OpState),
        (fixCommaSpacing books s1).ledger = (fixCommaSpacing books s2).ledger) ∧
      (∀ (books : List (List Char)) (s1 s2 : OpState),
        (fixApostrophes books s1).ledger = (fixApostrophes books s2).ledger) ∧
      (∀ (books : List (List Char)) (s1 s2 : OpState),
        (withoutAuthors books s1).ledger = (withoutAuthors books s2).ledger) ∧
      (∀ (books fs : List (List Char)) (oracle : List (Option (List Char)))
          (l1 l2 : List (List Char × List Char)),
        (withAuthors books fs oracle l1).ledger = (withAuthors books fs oracle l2).ledger) ∧
      (∀ (books books2 : List (List Char)) (l1 l2 : List (List Char × List Char)),
        (restoreAuthors books books2 l1).ledger = (restoreAuthors books books2 l2).ledger) ∧
      (∀ (pat : List Char) (books : List (List Char)) (s1 s2 : OpState),
        (removeSubstring pat books s1).ledger = (removeSubstring pat books s2).ledger) ∧
      (∀ s : OpState, (removeMultipleSpacing [("Clean.epub".data)] s).ledger = []) ∧
      (∀ s : OpState, (fixCommaSpacing [("Clean.epub".data)] s).ledger = []) ∧
      (∀ s : OpState, (fixApostrophes [("Clean.epub".data)] s).ledger = []) := by
  have hrms : ∀ (books : List (List Char)) (s1 s2 : OpState),
      (removeMultipleSpacing books s1).ledger = (removeMultipleSpacing books s2).ledger :=
    fun books s1 s2 => foldl_ledger_congr rmsStep_ledger_congr books _ _ rfl
  have hfc : ∀ (books : List (List Char)) (s1 s2 : OpState),
      (fixCommaSpacing books s1).ledger = (fixCommaSpacing books s2).ledger :=
    fun books s1 s2 => foldl_ledger_congr fixCommaStep_ledger_congr books _ _ rfl
  have hfa : ∀ (books : List (List Char)) (s1 s2 : OpState),
      (fixApostrophes books s1).ledger = (fixApostrophes books s2).ledger :=
    fun books s1 s2 => foldl_ledger_congr fixApostStep_ledger_congr books _ _ rfl
  refine ⟨hrms, hfc, hfa, ?_, fun _ _ _ _ _ => rfl, fun _ _ _ _ => rfl, ?_, ?_, ?_, ?_⟩
  · intro books s1 s2
    exact foldl_ledger_congr (fun st1 st2 b h => by simp [h]) books _ _ rfl
  · intro pat books s1 s2
    exact foldl_ledger_congr (removeSubstringStep_ledger_congr pat) books _ _ rfl
  · intro s
    exact (hrms _ s ⟨[], [], 0⟩).trans (by decide)
  · intro s
    exact (hfc _ s ⟨[], [], 0⟩).trans (by decide)
  · intro s
    exact (hfa _ s ⟨[], [], 0⟩).trans (by decide)

theorem matchTotal_self (b : List Char) : matchTotal b b = b.length := by
  unfold matchTotal
  simp only [min_self]
  exact List.sum_map_count_dedup_eq_length b

theorem ratioQ_self (b : List Char) : ratioQ b b = 1 := by
  unfold ratioQ
  split
  · rfl
  · rename_i h
    rw [matchTotal_self]
    have hne : ((b.length : ℚ) + b.length) ≠ 0 := by
      have : b.length ≠ 0 := by omega
      have h2 : (b.length : ℚ) ≠ 0 := Nat.cast_ne_zero.mpr this
      intro hc
      have : (b.length : ℚ) = 0 := by linarith [hc]
      exact h2 this
    rw [div_eq_one_iff_eq hne]
    push_cast
    ring

theorem nodup_sum_ite (x : Char) :
    ∀ l : List Char, l.Nodup →
      (l.map fun c => if c = x then 1 else 0).sum = if x ∈ l then 1 else 0 := by
  intro l
  induction l with
  | nil => simp
  | cons c cs ih =>
    intro h
    rcases List.nodup_cons.mp h with ⟨hc, hcs⟩
    by_cases hx : c = x
    · subst hx
      simp [hc, ih hcs]
    · have hxc : ¬x = c := fun hh => hx hh.symm
      simp [hx, hxc, ih hcs]

theorem map_add_sum (f g : Char → Nat) :
    ∀ l : List Char, (l.map fun c => f c + g c).sum = (l.map f).sum + (l.map g).sum := by
  intro l
  induction l with
  | nil => simp
  | cons d ds ih =>
    simp only [List.map_cons, List.sum_cons, ih]
    omega

theorem sum_counts_nodup_le (l : List Char) (hl : l.Nodup) :
    ∀ b : List Char, (l.map fun c => b.count c).sum ≤ b.length := by
  intro b
  induction b with
  | nil => simp
  | cons x bs ih =>
    have hrw : (l.map fun c => (x :: bs).count c)
        = l.map fun c => bs.count c + if c = x then 1 else 0 := by
      apply List.map_congr_left
      intro c _
      rw [List.count_cons]
      by_cases h : c = x
      · subst h; simp
      · have h2 : ¬x = c := fun hh => h hh.symm
        simp [h, h2]
    rw [hrw, map_add_sum, nodup_sum_ite x l hl]
    simp only [List.length_cons]
    split <;> omega

theorem matchTotal_le_left (a b : List Char) : matchTotal a b ≤ a.length := by
  unfold matchTotal
  calc (a.dedup.map fun c => min (a.count c) (b.count c)).sum
      ≤ (a.dedup.map fun c => a.count c).sum :=
        List.sum_le_sum (fun i _ => min_le_left _ _)
    _ = a.length := List.sum_map_count_dedup_eq_length a

theorem matchTotal_le_right (a b : List Char) : matchTotal a b ≤ b.length := by
  unfold matchTotal
  calc (a.dedup.map fun c => min (a.count c) (b.count c)).sum
      ≤ (a.dedup.map fun c => b.count c).sum :=
        List.sum_le_sum (fun i _ => min_le_right _ _)
    _ ≤ b.length := sum_counts_nodup_le a.dedup (List.nodup_dedup a) b

theorem ratioQ_le_one (a b : List Char) : ratioQ a b ≤ 1 := by
  unfold ratioQ
  split
  · exact le_refl 1
  · rename_i h
    have hpos : (0 : ℚ) < (a.length : ℚ) + b.length := by
      have : 0 < a.length + b.length := by omega
      exact_mod_cast this
    rw [div_le_one hpos]
    have h1 := matchTotal_le_left a b
    have h2 := matchTotal_le_right a b
    have : 2 * matchTotal a b ≤ a.length + b.length := by omega
    exact_mod_cast this

theorem ctdInner_ident_iff (b1 : List Char) :
    ∀ l : List (List Char), (ctdInner b1 l).1 = true ↔
      ∃ bk ∈ l, recognized3 bk = true ∧ ratioQ b1 (stripDotWords bk) = 1 := by
  intro l
  induction l with
  | nil => simp [ctdInner]
  | cons bk rest ih =>
    by_cases hr : recognized3 bk
    · by_cases h1 : ratioQ b1 (stripDotWords bk) = 1
      · simp [ctdInner, hr, h1]
      · by_cases h9 : (9 / 10 : ℚ) ≤ ratioQ b1 (stripDotWords bk)
        · simp [ctdInner, hr, h1, h9, ih]
        · simp [ctdInner, hr, h1, h9, ih]
    · simp [ctdInner, hr, ih]

theorem ctdInner_similar_mem (b1 : List Char) :
    ∀ (l : List (List Char)) (p : List Char × List Char),
      p ∈ (ctdInner b1 l).2.1 →
        p.1 = b1 ∧ (9 / 10 : ℚ) ≤ ratioQ p.1 p.2 ∧ ratioQ p.1 p.2 < 1 ∧ p.1 ≠ p.2 := by
  intro l
  induction l with
  | nil => simp [ctdInner]
  | cons bk rest ih =>
    intro p hp
    by_cases hr : recognized3 bk
    · by_cases h1 : ratioQ b1 (stripDotWords bk) = 1
      · simp [ctdInner, hr, h1] at hp
      · by_cases h9 : (9 / 10 : ℚ) ≤ ratioQ b1 (stripDotWords bk)
        · simp only [ctdInner, hr, if_true, h1, if_false, h9, List.mem_cons] at hp
          rcases hp with rfl | hp
          · refine ⟨rfl, h9, lt_of_le_of_ne (ratioQ_le_one _ _) h1, ?_⟩
            intro he
            exact h1 (by rw [show b1 = stripDotWords bk from he]; exact ratioQ_self _)
          · exact ih p hp
        · simp only [ctdInner, hr, if_true, h1, if_false, h9] at hp
          exact ih p hp
    · simp only [ctdInner, hr, if_false, Bool.false_eq_true] at hp
      exact ih p hp

theorem ctdInner_notfound_iff (b1 : List Char) :
    ∀ l : List (List Char), (ctdInner b1 l).2.2 = true ↔
      ∀ bk ∈ l, recognized3 bk = true → ratioQ b1 (stripDotWords bk) < 9 / 10 := by
  intro l
  induction l with
  | nil => simp [ctdInner]
  | cons bk rest ih =>
    by_cases hr : recognized3 bk
    · by_cases h1 : ratioQ b1 (stripDotWords bk) = 1
      · simp only [ctdInner, hr, if_true, h1]
        simp only [List.mem_cons, Bool.false_eq_true, false_iff, not_forall]
        refine ⟨bk, by simp, hr, ?_⟩
        rw [h1]
        norm_num
      · by_cases h9 : (9 / 10 : ℚ) ≤ ratioQ b1 (stripDotWords bk)
        · simp only [ctdInner, hr, if_true, h1, if_false, h9]
          simp only [List.mem_cons, Bool.false_eq_true, false_iff, not_forall]
          exact ⟨bk, by simp, hr, not_lt.mpr h9⟩
        · simp only [ctdInner, hr, if_true, h1, if_false, h9, ih]
          constructor
          · intro h bk2 hm hr2
            rcases List.mem_cons.mp hm with rfl | hm
            · exact lt_of_not_le h9
            · exact h bk2 hm hr2
          · intro h bk2 hm hr2
            exact h bk2 (List.mem_cons_of_mem _ hm) hr2
    · simp only [ctdInner, hr, if_false, Bool.false_eq_true, ih]
      constructor
      · intro h bk2 hm hr2
        rcases List.mem_cons.mp hm with rfl | hm
        · exact absurd hr2 hr
        · exact h bk2 hm hr2
      · intro h bk2 hm hr2
        exact h bk2 (List.mem_cons_of_mem _ hm) hr2

theorem compareTwoDirs_different_aux (books2 : List (List Char)) :
    ∀ (books : List (List Char)) (acc : CTDOut),
      (books.foldl (ctdStep books2) acc).different
        = acc.different ++ (books.filter (fun b =>
            recognized3 b && (ctdInner (stripDotWords b) books2).2.2)).map stripDotWords := by
  intro books
  induction books with
  | nil => simp
  | cons bk rest ih =>
    intro acc
    rw [List.foldl_cons, ih]
    by_cases hr : recognized3 bk
    · by_cases hnf : (ctdInner (stripDotWords bk) books2).2.2
      · simp [ctdStep, hr, hnf]
      · simp [ctdStep, hr, hnf]
    · simp [ctdStep, hr]

/-- **C6** (confirmed).  In the cross-directory all-pairs matcher: a
computed quick ratio of exactly 1 classifies the first-directory entry as
identical (and conversely); every pair on the similar list has ratio in
`[0.9, 1)` and distinct base names, while identical base names always give
ratio 1 (so a pair of identical base names is never reported as similar);
and a first-directory entry lands on the not-found list exactly when no
recognized second-directory entry reaches ratio 0.9 — that is, when it has
no identical and no similar counterpart. -/
theorem claim_C6_similarity :
    (∀ (b1 : List Char) (books2 : List (List Char)),
        (ctdInner b1 books2).1 = true ↔
          ∃ bk ∈ books2, recognized3 bk = true ∧ ratioQ b1 (stripDotWords bk) = 1) ∧
      (∀ (b1 : List Char) (books2 : List (List Char)) (p : List Char × List Char),
        p ∈ (ctdInner b1 books2).2.1 →
          p.1 = b1 ∧ (9 / 10 : ℚ) ≤ ratioQ p.1 p.2 ∧ ratioQ p.1 p.2 < 1 ∧ p.1 ≠ p.2) ∧
      (∀ bk : List Char, ratioQ (stripDotWords bk) (stripDotWords bk) = 1) ∧
      (∀ books books2 : List (List Char),
        (compareTwoDirs books books2).different
          = (books.filter (fun b =>
              recognized3 b && (ctdInner (stripDotWords b) books2).2.2)).map stripDotWords) ∧
      (∀ (b1 : List Char) (books2 : List (List Char)),
        (ctdInner b1 books2).2.2 = true ↔
          ∀ bk ∈ books2, recognized3 bk = true → ratioQ b1 (stripDotWords bk) < 9 / 10) :=
  ⟨ctdInner_ident_iff, ctdInner_similar_mem, fun bk => ratioQ_self _,
    fun books books2 => by
      rw [compareTwoDirs, compareTwoDirs_different_aux books2 books ⟨[], [], []⟩]
      rfl,
    ctdInner_notfound_iff⟩

theorem claim_C6_similarity_witness :
    (("abcdefghij".data), ("abcdefghik".data))
        ∈ (ctdInner ("abcdefghij".data) [("abcdefghik.pdf".data)]).2.1 ∧
      ("abcdefghij".data) = ("abcdefghij".data) ∧
        (9 / 10 : ℚ) ≤ ratioQ ("abcdefghij".data) ("abcdefghik".data) ∧
        ratioQ ("abcdefghij".data) ("abcdefghik".data) < 1 ∧
        ("abcdefghij".data) ≠ ("abcdefghik".data) := by
  have hm : matchTotal ("abcdefghij".data) ("abcdefghik".data) = 9 := by decide
  have hl1 : ("abcdefghij".data).length = 10 := by decide
  have hl2 : ("abcdefghik".data).length = 10 := by decide
  have hr : ratioQ ("abcdefghij".data) ("abcdefghik".data) = 9 / 10 := by
    rw [ratioQ, hm, hl1, hl2]
    norm_num
  have hstrip : stripDotWords ("abcdefghik.pdf".data) = ("abcdefghik".data) := by decide
  have hrec : recognized3 ("abcdefghik.pdf".data) = true := by decide
  have hne1 : ¬(ratioQ ("abcdefghij".data) ("abcdefghik".data) = 1) := by
    rw [hr]; norm_num
  have h9 : (9 / 10 : ℚ) ≤ ratioQ ("abcdefghij".data) ("abcdefghik".data) := le_of_eq hr.symm
  have hmem : (("abcdefghij".data), ("abcdefghik".data))
      ∈ (ctdInner ("abcdefghij".data) [("abcdefghik.pdf".data)]).2.1 := by
    simp [ctdInner, hrec, hstrip, hne1, h9]
  exact ⟨hmem,
    claim_C6_similarity.2.1 ("abcdefghij".data) [("abcdefghik.pdf".data)] _ hmem⟩

theorem lexLt_irrefl : ∀ x : List Char, lexLt x x = false := by
  intro x
  induction x with
  | nil => rfl
  | cons c cs ih => simp [lexLt, ih]

theorem lexLt_asymm : ∀ a b : List Char, lexLt a b = true → lexLt b a = false := by
  intro a
  induction a with
  | nil =>
    intro b h
    cases b with
    | nil => simpa [lexLt] using h
    | cons d ds => rfl
  | cons c cs ih =>
    intro b h
    cases b with
    | nil => simp [lexLt] at h
    | cons d ds =>
      simp only [lexLt] at h ⊢
      by_cases h1 : c < d
      · have h2 : ¬d < c := fun hh => absurd (lt_trans h1 hh) (lt_irrefl c)
        simp [h2, h1]
      · by_cases h2 : d < c
        · simp [h1, h2] at h
        · simp only [h1, if_false, h2] at h ⊢
          exact ih ds h

/-- The lowercased stripped base name of the `i`-th second-directory entry
(the key the binary search of `compareSize` compares). -/
def bKey (books2 : List (List Char)) (i : Nat) : List Char :=
  lowerName (stripDotWords ((books2.get? i).getD []))

/-- Binary-search overrun: if every entry of the (recognized) listing has a
key strictly below `b1`, the loop drives `lower` up to `len`, probes index
`len`, and raises `IndexError` — for any fuel large enough and any `upper`
fixed at `len`. -/
theorem sizeSearchAux_overrun (books2 : List (List Char)) (sz2 : List Char → Nat)
    (b1 : List Char) (size1 : Nat) (share : ℚ)
    (hrec : ∀ bk ∈ books2, recognized3 bk = true)
    (hlt : ∀ i < books2.length, lexLt (bKey books2 i) b1 = true) :
    ∀ (fuel : Nat) (b2prev : Option (List Char)) (lower : Int),
      0 ≤ lower → lower ≤ books2.length →
      (books2.length + 1 - lower).toNat < fuel →
      sizeSearchAux books2 sz2 b1 size1 share fuel b2prev lower books2.length
        = .idxErr := by
  intro fuel
  induction fuel with
  | zero => intro b2prev lower h0 hl hf; omega
  | succ n ih =>
    intro b2prev lower h0 hl hf
    have hle : ¬(lower > (books2.length : Int)) := by omega
    rw [sizeSearchAux]
    simp only [hle, if_false]
    set mid := (lower + books2.length) / 2 with hmid
    have hmid1 : lower ≤ mid := by omega
    have hmid2 : mid ≤ books2.length := by omega
    by_cases hml : mid.toNat < books2.length
    · obtain ⟨bk, hbk⟩ : ∃ bk, books2.get? mid.toNat = some bk := by
        cases hg : books2.get? mid.toNat with
        | none => exact absurd (List.get?_eq_none.mp hg) (by omega)
        | some bk => exact ⟨bk, rfl⟩
      rw [hbk]
      have hrbk : recognized3 bk = true := hrec bk (List.get?_mem hbk)
      have hkeybk : lowerName (stripDotWords bk) = bKey books2 mid.toNat := by
        rw [bKey, hbk]
        rfl
      have hklt : lexLt (bKey books2 mid.toNat) b1 = true := hlt mid.toNat hml
      have hne : ¬(b1 = lowerName (stripDotWords bk)) := by
        intro he
        rw [hkeybk] at he
        rw [← he] at hklt
        rw [lexLt_irrefl] at hklt
        exact Bool.false_ne_true hklt
      have hnlt : ¬(lexLt b1 (lowerName (stripDotWords bk)) = true) := by
        rw [hkeybk]
        rw [lexLt_asymm _ _ hklt]
        exact Bool.false_ne_true
      simp only [hrbk, if_true, hne, if_false, hnlt]
      exact ih (some (lowerName (stripDotWords bk))) (mid + 1) (by omega) (by omega)
        (by omega)
    · have hmn : mid.toNat = books2.length := by omega
      have : books2.get? mid.toNat = none := List.get?_eq_none.mpr (by omega)
      rw [this]

/-- Binary-search success: with every entry recognized, keys strictly
sorted, and `b1` present at index `k`, the loop stays inside
`[lower, upper] ∋ k`, probes only valid indices, finds index `k`, and
reports according to the size condition. -/
theorem sizeSearchAux_finds (books2 : List (List Char)) (sz2 : List Char → Nat)
    (b1 : List Char) (size1 : Nat) (share : ℚ) (k : Nat)
    (hrec : ∀ bk ∈ books2, recognized3 bk = true)
    (hsort : ∀ i j : Nat, i < j → j < books2.length →
      lexLt (bKey books2 i) (bKey books2 j) = true)
    (hk : k < books2.length) (hkey : bKey books2 k = b1) :
    ∀ (fuel : Nat) (b2prev : Option (List Char)) (lower upper : Int),
      0 ≤ lower → lower ≤ k → (k : Int) ≤ upper → upper ≤ books2.length →
      (upper + 1 - lower).toNat < fuel →
      sizeSearchAux books2 sz2 b1 size1 share fuel b2prev lower upper
        = (if size1 > sz2 ((books2.get? k).getD []) ∧
              ((size1 : ℚ) - sz2 ((books2.get? k).getD []) ≥ size1 * share) then
            .report size1 (sz2 ((books2.get? k).getD [])) b1
          else .noReport) := by
  intro fuel
  induction fuel with
  | zero => intro b2prev lower upper h0 hlk hku hu hf; omega
  | succ n ih =>
    intro b2prev lower upper h0 hlk hku hu hf
    have hle : ¬(lower > upper) := by omega
    rw [sizeSearchAux]
    simp only [hle, if_false]
    set mid := (lower + upper) / 2 with hmid
    have hmid1 : lower ≤ mid := by omega
    have hmid2 : mid ≤ upper := by omega
    have hml : mid.toNat < books2.length := by omega
    obtain ⟨bk, hbk⟩ : ∃ bk, books2.get? mid.toNat = some bk := by
      cases hg : books2.get? mid.toNat with
      | none => exact absurd (List.get?_eq_none.mp hg) (by omega)
      | some bk => exact ⟨bk, rfl⟩
    rw [hbk]
    have hrbk : recognized3 bk = true := hrec bk (List.get?_mem hbk)
    have hkeybk : lowerName (stripDotWords bk) = bKey books2 mid.toNat := by
      rw [bKey, hbk]
      rfl
    simp only [hrbk, if_true]
    rcases Nat.lt_trichotomy mid.toNat k with hmk | hmk | hmk
    · -- probe left of k: key mid < b1, take the lower := mid+1 branch
      have hklt : lexLt (bKey books2 mid.toNat) b1 = true := by
        rw [← hkey]
        exact hsort mid.toNat k hmk hk
      have hne : ¬(b1 = lowerName (stripDotWords bk)) := by
        intro he
        rw [hkeybk] at he
        rw [← he, lexLt_irrefl] at hklt
        exact Bool.false_ne_true hklt
      have hnlt : ¬(lexLt b1 (lowerName (stripDotWords bk)) = true) := by
        rw [hkeybk, lexLt_asymm _ _ hklt]
        exact Bool.false_ne_true
      simp only [hne, if_false, hnlt]
      exact ih (some (lowerName (stripDotWords bk))) (mid + 1) upper (by omega)
        (by omega) hku hu (by omega)
    · -- probe hits k: keys equal, report by the size condition
      have heq : b1 = lowerName (stripDotWords bk) := by
        rw [hkeybk, hmk, hkey]
      have hbk2 : (books2.get? k).getD [] = bk := by
        rw [← hmk, hbk]
        rfl
      rw [if_pos heq, hbk2]
    · -- probe right of k: b1 < key mid, take the upper := mid-1 branch
      have hklt : lexLt b1 (bKey books2 mid.toNat) = true := by
        rw [← hkey]
        exact hsort k mid.toNat hmk hml
      have hne : ¬(b1 = lowerName (stripDotWords bk)) := by
        intro he
        rw [hkeybk] at he
        rw [he, lexLt_irrefl] at hklt
        exact Bool.false_ne_true hklt
      have hlt2 : lexLt b1 (lowerName (stripDotWords bk)) = true := by
        rw [hkeybk]
        exact hklt
      simp only [hne, if_false, hlt2, if_true]
      exact ih (some (lowerName (stripDotWords bk))) lower (mid - 1) h0 hlk
        (by omega) (by omega) (by omega)

/-- **C10 counterexample**.  The claim says the inline binary search
accesses only valid indices for every input, in particular terminating
without error on an empty second listing.  With `lower = 0` and
`upper = len(books2) = 0` the loop guard `lower > upper` does not fire, and
the very first probe reads `books2[0]` of the empty listing — an
`IndexError`. -/
theorem claim_C10_counterexample :
    sizeSearch [] (fun _ => 0) ("x".data) 5 0 none = SizeCmpRes.idxErr := rfl

/-- **C10** (corrected).  The inline binary search of `compareSize` is
*not* index-safe: it probes the out-of-range index `len(books2)` exactly in
the overrun cases — always when the listing is empty, and whenever every
(recognized) entry's key is strictly below the searched base name, because
then every probe pushes `lower` up until `lower = upper = len` and
`books2[(lower+upper)//2] = books2[len]` raises `IndexError`.  When the
searched key *is* present in a strictly sorted, all-recognized listing the
search stays in bounds and terminates without error. -/
theorem claim_C10_search_bounds :
    (∀ (sz2 : List Char → Nat) (b1 : List Char) (size1 : Nat) (share : ℚ)
        (b2prev : Option (List Char)),
      sizeSearch [] sz2 b1 size1 share b2prev = SizeCmpRes.idxErr) ∧
      (∀ (books2 : List (List Char)) (sz2 : List Char → Nat) (b1 : List Char)
          (size1 : Nat) (share : ℚ) (b2prev : Option (List Char)),
        (∀ bk ∈ books2, recognized3 bk = true) →
        (∀ i < books2.length, lexLt (bKey books2 i) b1 = true) →
        sizeSearch books2 sz2 b1 size1 share b2prev = SizeCmpRes.idxErr) ∧
      (∀ (books2 : List (List Char)) (sz2 : List Char → Nat) (b1 : List Char)
          (size1 : Nat) (share : ℚ) (b2prev : Option (List Char)) (k : Nat),
        (∀ bk ∈ books2, recognized3 bk = true) →
        (∀ i j : Nat, i < j → j < books2.length →
          lexLt (bKey books2 i) (bKey books2 j) = true) →
        k < books2.length → bKey books2 k = b1 →
        sizeSearch books2 sz2 b1 size1 share b2prev ≠ SizeCmpRes.idxErr ∧
          sizeSearch books2 sz2 b1 size1 share b2prev ≠ SizeCmpRes.nameErr) := by
  refine ⟨fun sz2 b1 size1 share b2prev => rfl, ?_, ?_⟩
  · intro books2 sz2 b1 size1 share b2prev hrec hlt
    exact sizeSearchAux_overrun books2 sz2 b1 size1 share hrec hlt
      (books2.length + 2) b2prev 0 (by omega) (by omega) (by omega)
  · intro books2 sz2 b1 size1 share b2prev k hrec hsort hk hkey
    have h := sizeSearchAux_finds books2 sz2 b1 size1 share k hrec hsort hk hkey
      (books2.length + 2) b2prev 0 books2.length (by omega) (by omega)
      (by exact_mod_cast Nat.le_of_lt hk) (by omega) (by omega)
    rw [sizeSearch, h]
    constructor <;> split <;> simp

theorem claim_C10_search_bounds_witness :
    sizeSearch [("a.epub".data)] (fun _ => 0) ("b".data) 5 0 none
      = SizeCmpRes.idxErr :=
  claim_C10_search_bounds.2.1 [("a.epub".data)] (fun _ => 0) ("b".data) 5 0 none
    (by decide) (by decide)

/-- **C5** (corrected).  The size comparator's reporting rule, for a
(case-insensitive) base-name match located at index `k` of a strictly
sorted, all-recognized second listing: the pair is reported iff
`size1 > size2` and `size1 - size2 ≥ size1 * share` — so threshold 0
reports every strictly larger pair, 1000 vs 400 bytes is reported at
threshold 0.5 and not at 0.7, but threshold 1 does *not* report nothing:
a pair whose second file has size 0 still satisfies
`size1 - 0 ≥ size1 * 1` and is reported (see the counterexample). -/
theorem claim_C5_size_threshold :
    ∀ (books2 : List (List Char)) (sz1 sz2 : List Char → Nat) (share : ℚ)
      (book1 : List Char) (k : Nat) (b2prev : Option (List Char)),
      (∀ bk ∈ books2, recognized3 bk = true) →
      (∀ i j : Nat, i < j → j < books2.length →
        lexLt (bKey books2 i) (bKey books2 j) = true) →
      k < books2.length →
      bKey books2 k = lowerName (stripDotWords book1) →
      sizeSearch books2 sz2 (lowerName (stripDotWords book1)) (sz1 book1) share b2prev
        = (if sz1 book1 > sz2 ((books2.get? k).getD []) ∧
              ((sz1 book1 : ℚ) - sz2 ((books2.get? k).getD [])
                ≥ sz1 book1 * share) then
            SizeCmpRes.report (sz1 book1) (sz2 ((books2.get? k).getD []))
              (lowerName (stripDotWords book1))
          else SizeCmpRes.noReport) := by
  intro books2 sz1 sz2 share book1 k b2prev hrec hsort hk hkey
  exact sizeSearchAux_finds books2 sz2 (lowerName (stripDotWords book1))
    (sz1 book1) share k hrec hsort hk hkey (books2.length + 2) b2prev 0
    books2.length (by omega) (by omega) (by exact_mod_cast Nat.le_of_lt hk)
    (by omega) (by omega)

theorem claim_C5_size_threshold_witness :
    sizeSearch [("X.epub".data)] (fun _ => 400)
        (lowerName (stripDotWords ("X.epub".data))) 1000 (1 / 2) none
      = SizeCmpRes.report 1000 400 (lowerName (stripDotWords ("X.epub".data))) ∧
      sizeSearch [("X.epub".data)] (fun _ => 400)
          (lowerName (stripDotWords ("X.epub".data))) 1000 (7 / 10) none
        = SizeCmpRes.noReport := by
  have hs : ∀ i j : Nat, i < j → j < ([("X.epub".data)] : List (List Char)).length →
      lexLt (bKey [("X.epub".data)] i) (bKey [("X.epub".data)] j) = true :=
    fun i j hij hj => by
      simp only [List.length_cons, List.length_nil] at hj
      omega
  constructor
  · have h := claim_C5_size_threshold [("X.epub".data)] (fun _ => 1000)
      (fun _ => 400) (1 / 2) ("X.epub".data) 0 none (by decide) hs (by decide)
      (by decide)
    rw [h, if_pos]
    constructor
    · norm_num
    · norm_num
  · have h := claim_C5_size_threshold [("X.epub".data)] (fun _ => 1000)
      (fun _ => 400) (7 / 10) ("X.epub".data) 0 none (by decide) hs (by decide)
      (by decide)
    rw [h, if_neg]
    intro hc
    have := hc.2
    norm_num at this

/-- **C5 counterexample**.  The claim's "threshold 1 reports none" fails:
with directory-1 file `"X.epub"` of 1000 bytes, an identically named
directory-2 file of 0 bytes, and share 1, the condition
`size1 > size2 and size1 - size2 >= size1 * share` is `1000 > 0` and
`1000 ≥ 1000`, so the pair *is* reported. -/
theorem claim_C5_counterexample :
    compareSizeReports [("X.epub".data)] [("X.epub".data)]
        (fun _ => 1000) (fun _ => 0) 1
      = [(1000, 0, ("x".data))] := by
  have hs : ∀ i j : Nat, i < j → j < ([("X.epub".data)] : List (List Char)).length →
      lexLt (bKey [("X.epub".data)] i) (bKey [("X.epub".data)] j) = true :=
    fun i j hij hj => by
      simp only [List.length_cons, List.length_nil] at hj
      omega
  have h := claim_C5_size_threshold [("X.epub".data)] (fun _ => 1000)
    (fun _ => 0) 1 ("X.epub".data) 0 none (by decide) hs (by decide) (by decide)
  rw [if_pos] at h
  · have hb : lowerName (stripDotWords ("X.epub".data)) = ("x".data) := by decide
    rw [hb] at h
    simp only [compareSizeReports, List.foldl]
    rw [show recognized3 ("X.epub".data) = true from by decide]
    simp only [if_true]
    rw [hb, h]
    rfl
  · constructor
    · norm_num
    · norm_num

/-! ## Lemmas for claim C8 (withoutAuthors idempotence) -/

theorem charAt_drop (s : List Char) (n j : Nat) :
    charAt (s.drop n) j = charAt s (n + j) := by
  simp [charAt, List.getElem?_drop]

theorem charAt_oob {s : List Char} {p : Nat} (h : s.length ≤ p) :
    charAt s p = Char.ofNat 0 := by
  simp [charAt, List.getElem?_eq_none h]

theorem wsHead_cons_cons (X : List Char) (c d : Char) (r : List Char) :
    wsCommaArtHead X (c :: d :: r)
      = (decide (c = ',') && isSpaceChar d && beginsWith r (X ++ ['.'])) := by
  by_cases hc : c = ','
  · subst hc
    simp [wsCommaArtHead]
  · have hf : wsCommaArtHead X (c :: d :: r) = false := by
      unfold wsCommaArtHead
      split
      · rename_i heq
        injection heq with h1 _
        exact absurd h1 hc
      · rfl
    simp [hf, hc]

theorem wsHead_nil (X : List Char) : wsCommaArtHead X [] = false := rfl

theorem wsHead_single (X : List Char) (c : Char) : wsCommaArtHead X [c] = false := by
  unfold wsCommaArtHead
  split
  · rename_i heq
    exact absurd (congrArg List.length heq) (by simp)
  · rfl

/-- Character-level description of a `,\sX\.` match at position `p` of `s`
(no side conditions needed: an out-of-range `charAt` yields NUL, which is
neither a comma nor whitespace). -/
theorem wsHead_iff (X s : List Char) (p : Nat) :
    wsCommaArtHead X (s.drop p) = true ↔
      charAt s p = ',' ∧ isSpaceChar (charAt s (p + 1)) = true ∧
        beginsWith (s.drop (p + 2)) (X ++ ['.']) = true := by
  by_cases hp : p < s.length
  · by_cases hp1 : p + 1 < s.length
    · rw [drop_eq_charAt_cons hp]
      conv_lhs => rw [drop_eq_charAt_cons hp1]
      rw [wsHead_cons_cons]
      simp only [Bool.and_eq_true, decide_eq_true_eq]
      constructor
      · rintro ⟨⟨h1, h2⟩, h3⟩
        exact ⟨h1, h2, h3⟩
      · rintro ⟨h1, h2, h3⟩
        exact ⟨⟨h1, h2⟩, h3⟩
    · rw [drop_eq_charAt_cons hp]
      rw [show s.drop (p + 1) = [] from List.drop_eq_nil_of_le (by omega)]
      rw [wsHead_single]
      constructor
      · intro h
        exact absurd h (by simp)
      · rintro ⟨h1, h2, h3⟩
        rw [charAt_oob (by omega)] at h2
        exact absurd h2 (by decide)
  · rw [show s.drop p = [] from List.drop_eq_nil_of_le (by omega)]
    rw [wsHead_nil]
    constructor
    · intro h
      exact absurd h (by simp)
    · rintro ⟨h1, _⟩
      rw [charAt_oob (by omega)] at h1
      exact absurd h1 (by decide)

theorem noCommaArt_iff (X s : List Char) :
    hasCommaArt X s = false ↔ ∀ p, wsCommaArtHead X (s.drop p) = false := by
  rw [hasCommaArt, ← Bool.not_eq_true, Option.isSome_iff_ne_none, not_not,
    firstIdx_eq_none_iff]
  constructor
  · intro h p
    by_cases hp : p < s.length
    · exact h p (by omega) (by omega)
    · rw [List.drop_eq_nil_of_le (by omega)]
      exact wsHead_nil X
  · intro h p _ _
    exact h p

theorem noWs_of_no_comma {X s : List Char} (h : ',' ∉ s) :
    ∀ p, wsCommaArtHead X (s.drop p) = false := by
  intro p
  rw [← Bool.not_eq_true, wsHead_iff]
  rintro ⟨h1, _⟩
  by_cases hp : p < s.length
  · exact charAt_eq_of_not_mem h hp h1
  · rw [charAt_oob (by omega)] at h1
    exact absurd h1 (by decide)

theorem noWs_cons {X z : List Char} {c : Char} (hc : c ≠ ',')
    (hz : ∀ q, wsCommaArtHead X (z.drop q) = false) :
    ∀ q, wsCommaArtHead X ((c :: z).drop q) = false := by
  intro q
  cases q with
  | zero =>
    rw [← Bool.not_eq_true, wsHead_iff]
    rintro ⟨h1, _⟩
    rw [charAt_cons_zero] at h1
    exact hc h1
  | succ q => exact hz q

theorem noWs_shift {X : List Char} (a z : List Char)
    (hz : ∀ q, wsCommaArtHead X (z.drop q) = false) :
    ∀ p, a.length ≤ p → wsCommaArtHead X ((a ++ z).drop p) = false := by
  intro p hp
  have : (a ++ z).drop p = z.drop (p - a.length) := by
    conv_lhs => rw [show p = a.length + (p - a.length) from by omega]
    rw [drop_append_add]
  rw [this]
  exact hz _

theorem noWs_append {X : List Char} (a z : List Char)
    (ha : ∀ p, p < a.length → wsCommaArtHead X ((a ++ z).drop p) = false)
    (hz : ∀ q, wsCommaArtHead X (z.drop q) = false) :
    ∀ p, wsCommaArtHead X ((a ++ z).drop p) = false := by
  intro p
  by_cases hp : p < a.length
  · exact ha p hp
  · exact noWs_shift a z hz p (by omega)

theorem noWs_prefix_no_comma {X : List Char} (a z : List Char) (ha : ',' ∉ a) :
    ∀ p, p < a.length → wsCommaArtHead X ((a ++ z).drop p) = false := by
  intro p hp
  rw [← Bool.not_eq_true, wsHead_iff]
  rintro ⟨h1, _⟩
  rw [charAt_append_left hp] at h1
  exact charAt_eq_of_not_mem ha hp h1

/-- The segment-transfer lemma: a `,\sX\.` match starting inside `seg` in
`seg ++ t0 :: tr` (where `t0`, the first character after the segment, is
neither whitespace nor a letter, and `X` is all letters) transfers to a
match in `seg ++ ['.']` — the pattern either stays inside `seg` or uses
`t0` as its final dot. -/
theorem wsMatch_transfer {X seg tr : List Char} {t0 : Char} {p : Nat}
    (hXall : ∀ j, j < X.length → isLetterChar (charAt X j) = true)
    (hs : isSpaceChar t0 = false) (hl : isLetterChar t0 = false)
    (hp : p < seg.length)
    (hm : wsCommaArtHead X ((seg ++ t0 :: tr).drop p) = true) :
    wsCommaArtHead X ((seg ++ ['.']).drop p) = true := by
  set y := seg ++ t0 :: tr with hy
  rw [wsHead_iff] at hm
  obtain ⟨hc, hsp, hbw⟩ := hm
  rw [beginsWith_pointwise] at hbw
  obtain ⟨hlen, hpoint⟩ := hbw
  have hylen : y.length = seg.length + 1 + tr.length := by
    simp [hy]
    omega
  have hdlen : (y.drop (p + 2)).length = y.length - (p + 2) := by
    simp
  have hchar : ∀ j, j ≤ X.length → charAt y (p + 2 + j) = charAt (X ++ ['.']) j := by
    intro j hj
    have := hpoint j (by simp; omega)
    rwa [charAt_drop] at this
  have hm1 : charAt y seg.length = t0 := by
    rw [hy]
    have := charAt_append_right seg (t0 :: tr) 0
    simpa [charAt_cons_zero] using this
  -- the space position cannot be the boundary
  have hp1 : p + 1 < seg.length := by
    rcases Nat.lt_or_ge (p + 1) seg.length with h | h
    · exact h
    · have he : p + 1 = seg.length := by omega
      rw [← he] at hm1
      rw [hm1] at hsp
      rw [hsp] at hs
      exact absurd hs (by simp)
  -- boundary position relative to the pattern tail
  rcases Nat.lt_or_ge (p + 2 + X.length) seg.length with hin | hbd
  · -- pattern entirely inside seg
    rw [wsHead_iff]
    refine ⟨?_, ?_, ?_⟩
    · rw [charAt_append_left hp]
      rw [hy, charAt_append_left hp] at hc
      exact hc
    · rw [charAt_append_left hp1]
      rw [hy, charAt_append_left hp1] at hsp
      exact hsp
    · rw [beginsWith_pointwise]
      constructor
      · simp
        omega
      · intro j hj
        have hj2 : j ≤ X.length := by simp at hj; omega
        have h1 := hchar j hj2
        rw [hy, charAt_append_left (by omega)] at h1
        rw [charAt_drop, charAt_append_left (by omega)]
        exact h1
  · -- the boundary position seg.length is covered by the pattern tail
    have hj0 : seg.length - (p + 2) ≤ X.length := by omega
    have hb := hchar (seg.length - (p + 2)) hj0
    have hrw : p + 2 + (seg.length - (p + 2)) = seg.length := by omega
    rw [hrw, hm1] at hb
    rcases Nat.lt_or_ge (seg.length - (p + 2)) X.length with hlt | hge
    · -- t0 would have to be a letter of X: contradiction
      rw [charAt_append_left hlt] at hb
      have := hXall _ hlt
      rw [← hb] at this
      rw [this] at hl
      exact absurd hl (by simp)
    · -- t0 is the pattern's final dot: the match transfers
      have hj0' : seg.length - (p + 2) = X.length := by omega
      have hdot : charAt (X ++ ['.']) X.length = '.' := by
        have := charAt_append_right X ['.'] 0
        simpa using this
      rw [hj0', hdot] at hb
      rw [wsHead_iff]
      refine ⟨?_, ?_, ?_⟩
      · rw [charAt_append_left hp]
        rw [hy, charAt_append_left hp] at hc
        exact hc
      · rw [charAt_append_left hp1]
        rw [hy, charAt_append_left hp1] at hsp
        exact hsp
      · rw [beginsWith_pointwise]
        constructor
        · simp
          omega
        · intro j hj
          simp only [List.length_append, List.length_cons, List.length_nil] at hj
          rw [charAt_drop]
          rcases Nat.lt_or_ge (p + 2 + j) seg.length with hjin | hjbd
          · rw [charAt_append_left hjin]
            have h1 := hchar j (by omega)
            rw [hy, charAt_append_left hjin] at h1
            exact h1
          · have hje : j = X.length := by omega
            have : p + 2 + j = seg.length := by omega
            rw [this]
            have h2 : charAt (seg ++ ['.']) seg.length = '.' := by
              have := charAt_append_right seg ['.'] 0
              simpa using this
            rw [h2, hje, hdot]

/-- No `,\sX\.` match can start inside a segment whose
`hasCommaArt X (seg ++ ['.'])` condition holds, whatever follows it
(provided the next character is neither whitespace nor a letter). -/
theorem noWs_seg_region {X seg tr : List Char} {t0 : Char}
    (hXall : ∀ j, j < X.length → isLetterChar (charAt X j) = true)
    (hseg : hasCommaArt X (seg ++ ['.']) = false)
    (hs : isSpaceChar t0 = false) (hl : isLetterChar t0 = false) :
    ∀ p, p < seg.length → wsCommaArtHead X ((seg ++ t0 :: tr).drop p) = false := by
  intro p hp
  by_contra hc
  have hm : wsCommaArtHead X ((seg ++ t0 :: tr).drop p) = true := by
    revert hc
    cases wsCommaArtHead X ((seg ++ t0 :: tr).drop p) <;> simp
  have := wsMatch_transfer hXall hs hl hp hm
  rw [noCommaArt_iff] at hseg
  rw [hseg p] at this
  exact Bool.false_ne_true this

/-- Character facts about the four recognized extensions. -/
theorem extFacts : ∀ e ∈ fourExts, e ≠ [] ∧ ',' ∉ e ∧ '_' ∉ e ∧ '-' ∉ e ∧
    '.' ∉ e := by decide

/-- Character facts about the three English articles tested by
`withoutAuthors`. -/
theorem engFacts : ∀ X ∈ engArts,
    (∀ j, j < X.length → isLetterChar (charAt X j) = true) ∧ ',' ∉ X ∧
      '_' ∉ X ∧ '-' ∉ X ∧ X ∈ articleTable := by decide

/-- Character facts about the full article table. -/
theorem tableFacts : ∀ Xa ∈ articleTable, ',' ∉ Xa ∧ '-' ∉ Xa ∧ '_' ∉ Xa ∧
    '.' ∉ Xa ∧ Xa ≠ [] := by decide

/-- Any two distinct articles (table vs English) differ within the first
`min+1` characters of their dot-terminated forms. -/
def clashOK (Xa Xp : List Char) : Bool :=
  (List.range (min Xa.length Xp.length + 1)).any
    (fun j => decide (charAt (Xa ++ ['.']) j ≠ charAt (Xp ++ ['.']) j))

theorem tableClashDec : ∀ Xa ∈ articleTable, ∀ Xp ∈ engArts, Xa ≠ Xp →
    clashOK Xa Xp = true := by decide

theorem clash_beginsWith_false (Xa Xp E : List Char) (h : clashOK Xa Xp = true) :
    beginsWith (Xa ++ '.' :: E) (Xp ++ ['.']) = false := by
  rw [clashOK, List.any_eq_true] at h
  obtain ⟨j, hj, hne⟩ := h
  rw [List.mem_range] at hj
  rw [decide_eq_true_eq] at hne
  by_contra hc
  have hbw : beginsWith (Xa ++ '.' :: E) (Xp ++ ['.']) = true := by
    revert hc
    cases beginsWith (Xa ++ '.' :: E) (Xp ++ ['.']) <;> simp
  rw [beginsWith_pointwise] at hbw
  obtain ⟨hlen, hpoint⟩ := hbw
  have hja : j < (Xa ++ ['.']).length := by simp; omega
  have hjp : j < (Xp ++ ['.']).length := by simp; omega
  have h1 := hpoint j (by simp; omega)
  have h2 : charAt (Xa ++ '.' :: E) j = charAt (Xa ++ ['.']) j := by
    rw [show Xa ++ '.' :: E = (Xa ++ ['.']) ++ E by simp]
    exact charAt_append_left hja
  rw [h2] at h1
  exact hne h1

theorem beginsWith_commaArtPat_wsHead {X s : List Char}
    (h : beginsWith s (commaArtPat X) = true) : wsCommaArtHead X s = true := by
  rw [commaArtPat] at h
  cases s with
  | nil => simp [beginsWith] at h
  | cons c rest =>
    cases rest with
    | nil =>
      simp only [beginsWith, Bool.and_eq_true, decide_eq_true_eq] at h
      exact absurd h.2 (by simp [beginsWith])
    | cons d r2 =>
      simp only [beginsWith, Bool.and_eq_true, decide_eq_true_eq] at h
      obtain ⟨hc, hd, hr⟩ := h
      subst hc
      subst hd
      simp [wsCommaArtHead, hr, isSpaceChar]

theorem artEndTest_false_of_noWs {X y : List Char} (k : Nat)
    (h : ∀ p, wsCommaArtHead X (y.drop p) = false) : artEndTest X k y = false := by
  rw [artEndTest, ← Bool.not_eq_true, Option.isSome_iff_ne_none, not_not,
    firstIdx_eq_none_iff]
  intro i _ _
  rw [Bool.and_eq_false_iff]
  by_cases hb : beginsWith ((y.drop (y.length - k)).drop i) (commaArtPat X) = true
  · have := beginsWith_commaArtPat_wsHead hb
    rw [List.drop_drop] at this
    rw [h] at this
    exact absurd this (by simp)
  · right
    revert hb
    cases beginsWith ((y.drop (y.length - k)).drop i) (commaArtPat X) <;> simp

theorem wsHead_head_ne {X z : List Char} {c : Char} (hc : c ≠ ',') :
    wsCommaArtHead X (c :: z) = false := by
  cases z with
  | nil => exact wsHead_single X c
  | cons d r =>
    rw [wsHead_cons_cons]
    simp [hc]

theorem not_comma_mem_art_tail {Xa E : List Char} (hXaC : ',' ∉ Xa)
    (hEC : ',' ∉ E) : ',' ∉ Xa ++ '.' :: E := by
  simp only [List.mem_append, List.mem_cons]
  rintro (h | h | h)
  · exact hXaC h
  · exact absurd h (by decide)
  · exact hEC h

/-- The `,\sXa\.` tail of a name with article `Xa` admits no `,\sX\.` match
when the article texts clash. -/
theorem noWs_tail_art {X Xa E : List Char}
    (hclash : beginsWith (Xa ++ '.' :: E) (X ++ ['.']) = false)
    (hXaC : ',' ∉ Xa) (hEC : ',' ∉ E) :
    ∀ q, wsCommaArtHead X ((',' :: ' ' :: (Xa ++ '.' :: E)).drop q) = false := by
  intro q
  match q with
  | 0 =>
    show wsCommaArtHead X (',' :: ' ' :: (Xa ++ '.' :: E)) = false
    rw [wsHead_cons_cons]
    simp [hclash]
  | 1 =>
    show wsCommaArtHead X (' ' :: (Xa ++ '.' :: E)) = false
    exact wsHead_head_ne (by decide)
  | (q + 2) =>
    show wsCommaArtHead X ((Xa ++ '.' :: E).drop q) = false
    exact noWs_of_no_comma (not_comma_mem_art_tail hXaC hEC) q

theorem noWs_tail_dotE {X E : List Char} (hEC : ',' ∉ E) :
    ∀ q, wsCommaArtHead X (('.' :: E).drop q) = false := by
  apply noWs_of_no_comma
  simp only [List.mem_cons]
  rintro (h | h)
  · exact absurd h (by decide)
  · exact hEC h

/-- No match anywhere in `T ++ '.' :: E` (the shape with no subtitle and no
article, and the shape of every rewrite result after the prefix). -/
theorem noWs_y0 {X T E : List Char}
    (hXall : ∀ j, j < X.length → isLetterChar (charAt X j) = true)
    (hT : hasCommaArt X (T ++ ['.']) = false) (hEC : ',' ∉ E) :
    ∀ p, wsCommaArtHead X ((T ++ '.' :: E).drop p) = false :=
  noWs_append T ('.' :: E)
    (noWs_seg_region hXall hT (by decide) (by decide))
    (noWs_tail_dotE hEC)

/-- No match anywhere in `T ++ ", Xa." ++ E` when the articles clash. -/
theorem noWs_y2 {X T Xa E : List Char}
    (hXall : ∀ j, j < X.length → isLetterChar (charAt X j) = true)
    (hT : hasCommaArt X (T ++ ['.']) = false)
    (hclash : beginsWith (Xa ++ '.' :: E) (X ++ ['.']) = false)
    (hXaC : ',' ∉ Xa) (hEC : ',' ∉ E) :
    ∀ p, wsCommaArtHead X ((T ++ ',' :: ' ' :: (Xa ++ '.' :: E)).drop p) = false :=
  noWs_append T (',' :: ' ' :: (Xa ++ '.' :: E))
    (noWs_seg_region hXall hT (by decide) (by decide))
    (noWs_tail_art hclash hXaC hEC)

/-- No match anywhere in `T ++ "_ " ++ S ++ '.' :: E`. -/
theorem noWs_y1 {X T S E : List Char}
    (hXall : ∀ j, j < X.length → isLetterChar (charAt X j) = true)
    (hT : hasCommaArt X (T ++ ['.']) = false)
    (hS : hasCommaArt X (S ++ ['.']) = false) (hEC : ',' ∉ E) :
    ∀ p, wsCommaArtHead X ((T ++ '_' :: ' ' :: (S ++ '.' :: E)).drop p) = false :=
  noWs_append T ('_' :: ' ' :: (S ++ '.' :: E))
    (noWs_seg_region hXall hT (by decide) (by decide))
    (noWs_cons (by decide) (noWs_cons (by decide) (noWs_y0 hXall hS hEC)))

/-- No match anywhere in `T ++ "_ " ++ S ++ ", Xa." ++ E` when the
articles clash. -/
theorem noWs_y3 {X T S Xa E : List Char}
    (hXall : ∀ j, j < X.length → isLetterChar (charAt X j) = true)
    (hT : hasCommaArt X (T ++ ['.']) = false)
    (hS : hasCommaArt X (S ++ ['.']) = false)
    (hclash : beginsWith (Xa ++ '.' :: E) (X ++ ['.']) = false)
    (hXaC : ',' ∉ Xa) (hEC : ',' ∉ E) :
    ∀ p, wsCommaArtHead X
      ((T ++ '_' :: ' ' :: (S ++ ',' :: ' ' :: (Xa ++ '.' :: E))).drop p) = false :=
  noWs_append T ('_' :: ' ' :: (S ++ ',' :: ' ' :: (Xa ++ '.' :: E)))
    (noWs_seg_region hXall hT (by decide) (by decide))
    (noWs_cons (by decide) (noWs_cons (by decide)
      (noWs_append S (',' :: ' ' :: (Xa ++ '.' :: E))
        (noWs_seg_region hXall hS (by decide) (by decide))
        (noWs_tail_art hclash hXaC hEC))))

/-- No match anywhere in the prefixed result shape
`Xart ++ ' ' :: (T ++ '.' :: E)`. -/
theorem noWs_r1 {X Xart T E : List Char}
    (hXall : ∀ j, j < X.length → isLetterChar (charAt X j) = true)
    (hXaC : ',' ∉ Xart)
    (hT : hasCommaArt X (T ++ ['.']) = false) (hEC : ',' ∉ E) :
    ∀ p, wsCommaArtHead X ((Xart ++ ' ' :: (T ++ '.' :: E)).drop p) = false :=
  noWs_append Xart (' ' :: (T ++ '.' :: E))
    (noWs_prefix_no_comma Xart _ hXaC)
    (noWs_cons (by decide) (noWs_y0 hXall hT hEC))

/-- The designed article test fires: for a name ending in `", X." ++ E`
with `|E| ≤ 4`, the window of the last `|X| + 8` characters contains
`", X."` at a window index ≥ 1. -/
theorem artEndTest_true_designed {X body E : List Char}
    (hbody : 1 ≤ body.length) (hE : E.length ≤ 4) :
    artEndTest X (X.length + 8) (body ++ ',' :: ' ' :: (X ++ '.' :: E)) = true := by
  set y := body ++ ',' :: ' ' :: (X ++ '.' :: E) with hy
  have hylen : y.length = body.length + X.length + E.length + 3 := by
    simp [hy]
    omega
  simp only [artEndTest]
  rw [firstIdx_isSome_iff]
  set off := y.length - (X.length + 8) with hoff
  refine ⟨body.length - off, by omega, ?_, ?_⟩
  · have h1 : off ≤ body.length := by omega
    have h2 : (y.drop off).length = y.length - off := by simp
    omega
  · have hoffle : off ≤ body.length := by omega
    have hge1 : 1 ≤ body.length - off := by omega
    rw [Bool.and_eq_true]
    constructor
    · simp [hge1]
    · rw [List.drop_drop]
      have : off + (body.length - off) = body.length := by omega
      rw [this]
      have hdrop : y.drop body.length = ',' :: ' ' :: (X ++ '.' :: E) := by
        rw [hy, List.drop_left]
      rw [hdrop]
      have hsplit : ',' :: ' ' :: (X ++ '.' :: E) = commaArtPat X ++ E := by
        simp [commaArtPat]
      rw [hsplit]
      exact beginsWith_append_self _ _

theorem lastIdxOf_eq_none {c : Char} : ∀ {s : List Char}, c ∉ s →
    lastIdxOf c s = none := by
  intro s
  induction s with
  | nil => intro _; rfl
  | cons a rest ih =>
    intro h
    simp only [List.mem_cons, not_or] at h
    rw [lastIdxOf, ih h.2]
    have h2 : ¬a = c := fun hh => h.1 hh.symm
    simp [h2]

theorem lastIdxOf_append_dot {b : List Char} (hb : '.' ∉ b) :
    ∀ a : List Char, lastIdxOf '.' (a ++ '.' :: b) = some a.length := by
  intro a
  induction a with
  | nil =>
    simp only [List.nil_append]
    rw [lastIdxOf, lastIdxOf_eq_none hb]
    simp
  | cons c rest ih =>
    simp only [List.cons_append]
    rw [lastIdxOf, ih]
    simp

theorem stripSubtitle_no_underscore {s : List Char} (h : '_' ∉ s) :
    stripSubtitle s = s := by
  have hss : subtitleStart s = none := by
    rw [subtitleStart]
    cases lastIdxOf '.' s with
    | none => rfl
    | some d =>
      rw [firstIdx_eq_none_iff]
      intro p _ _
      rw [Bool.and_eq_false_iff, Bool.and_eq_false_iff, Bool.and_eq_false_iff]
      left
      left
      left
      by_cases hp : p < s.length
      · simp [charAt_eq_of_not_mem h hp]
      · simp [charAt_oob (by omega : s.length ≤ p)]
  rw [stripSubtitle, hss]

/-- The designed subtitle match: with an underscore-free title, the first
`_+\s.+(?=\.)` match starts at the title/subtitle boundary and removes up
to the last dot, which precedes the extension. -/
theorem stripSubtitle_designed {T S Z E : List Char}
    (hT : '_' ∉ T) (hS : S ≠ []) (hZ : '.' ∉ Z) (hE : '.' ∉ E) :
    stripSubtitle (T ++ '_' :: ' ' :: (S ++ Z ++ '.' :: E)) = T ++ '.' :: E := by
  set y := T ++ '_' :: ' ' :: (S ++ Z ++ '.' :: E) with hy
  have hylen : y.length = T.length + S.length + Z.length + E.length + 3 := by
    simp [hy]
    omega
  have hSlen : 1 ≤ S.length := by
    cases S with
    | nil => exact absurd rfl hS
    | cons _ _ => simp
  have hd : lastIdxOf '.' y = some (T.length + 2 + S.length + Z.length) := by
    have hsplit : y = (T ++ '_' :: ' ' :: (S ++ Z)) ++ '.' :: E := by
      simp [hy]
    rw [hsplit, lastIdxOf_append_dot hE]
    simp
    omega
  have hdropT : y.drop T.length = '_' :: ' ' :: (S ++ Z ++ '.' :: E) := by
    rw [hy, List.drop_left]
  have hrun : runEnd y T.length = T.length + 1 := by
    rw [runEnd, hdropT]
    simp [List.takeWhile]
  have hcT : charAt y T.length = '_' := by
    have := charAt_append_right T ('_' :: ' ' :: (S ++ Z ++ '.' :: E)) 0
    rw [← hy] at this
    simpa [charAt_cons_zero] using this
  have hcT1 : charAt y (T.length + 1) = ' ' := by
    have := charAt_append_right T ('_' :: ' ' :: (S ++ Z ++ '.' :: E)) 1
    rw [← hy] at this
    simpa [charAt_cons_succ, charAt_cons_zero] using this
  have hss : subtitleStart y = some T.length := by
    rw [subtitleStart, hd]
    apply firstIdx_eq_some (Nat.zero_le _) (by omega)
    · rw [hcT, hrun, hcT1]
      simp only [decide_eq_true_eq, Bool.and_eq_true, decide_True]
      refine ⟨⟨⟨by simp, by decide⟩, by omega⟩, by omega⟩
    · intro q _ hq
      rw [Bool.and_eq_false_iff, Bool.and_eq_false_iff, Bool.and_eq_false_iff]
      left
      left
      left
      have : charAt y q = charAt T q := by
        rw [hy]
        exact charAt_append_left hq
      rw [this]
      simp [charAt_eq_of_not_mem hT hq]
  rw [stripSubtitle, hss, hd]
  have htake : y.take T.length = T := by
    rw [hy, List.take_left]
  have hdrop : y.drop (T.length + 2 + S.length + Z.length) = '.' :: E := by
    have hsplit : y = (T ++ '_' :: ' ' :: (S ++ Z)) ++ '.' :: E := by
      simp [hy]
    have hlen2 : (T ++ '_' :: ' ' :: (S ++ Z)).length
        = T.length + 2 + S.length + Z.length := by
      simp
      omega
    rw [hsplit, ← hlen2, List.drop_left]
  show y.take T.length ++ y.drop (T.length + 2 + S.length + Z.length) = T ++ '.' :: E
  rw [htake, hdrop]

theorem subCommaArtAux_nil (X : List Char) : ∀ fuel, subCommaArtAux X fuel [] = [] := by
  intro fuel
  cases fuel <;> rfl

/-- A scanner step on a position with no `,\sX\.` match emits the head
character unchanged. -/
theorem subCommaArtAux_step_nomatch {X : List Char} {c : Char} {rest : List Char}
    (h : wsCommaArtHead X (c :: rest) = false) (fuel : Nat) :
    subCommaArtAux X (fuel + 1) (c :: rest) = c :: subCommaArtAux X fuel rest := by
  by_cases hc : c = ','
  · subst hc
    cases rest with
    | nil =>
      rw [subCommaArtAux, subCommaArtAux_nil, if_pos rfl]
    | cons d rest2 =>
      rw [wsHead_cons_cons] at h
      simp only [decide_True, Bool.true_and, Bool.and_eq_false_iff] at h
      rw [subCommaArtAux]
      have hcf : (isSpaceChar d && beginsWith rest2 (X ++ ['.'])) = false := by
        rcases h with h | h <;> simp [h]
      simp [hcf]
  · cases rest with
    | nil =>
      rw [subCommaArtAux, if_neg hc, subCommaArtAux_nil]
    | cons d rest2 =>
      rw [subCommaArtAux, if_neg hc]

theorem subCommaArtAux_fuel {X : List Char} :
    ∀ (fuel1 : Nat) (s : List Char) (fuel2 : Nat), s.length ≤ fuel1 →
      s.length ≤ fuel2 → subCommaArtAux X fuel1 s = subCommaArtAux X fuel2 s := by
  intro fuel1
  induction fuel1 with
  | zero =>
    intro s fuel2 h1 _
    have : s = [] := List.eq_nil_of_length_eq_zero (by omega)
    subst this
    rw [subCommaArtAux_nil, subCommaArtAux_nil]
  | succ n ih =>
    intro s fuel2 h1 h2
    cases s with
    | nil => rw [subCommaArtAux_nil, subCommaArtAux_nil]
    | cons c rest =>
      cases fuel2 with
      | zero => simp at h2
      | succ m =>
        by_cases hm : wsCommaArtHead X (c :: rest) = true
        · cases rest with
          | nil => exact absurd hm (by rw [wsHead_single]; simp)
          | cons d rest2 =>
            rw [wsHead_cons_cons] at hm
            simp only [Bool.and_eq_true, decide_eq_true_eq] at hm
            obtain ⟨⟨hc, hd⟩, hb⟩ := hm
            subst hc
            rw [subCommaArtAux, subCommaArtAux]
            simp only [if_pos rfl, hd, hb, Bool.true_and, if_true]
            congr 1
            apply ih
            · have := List.length_drop (X.length + 1) rest2
              simp only [List.length_cons] at h1
              omega
            · have := List.length_drop (X.length + 1) rest2
              simp only [List.length_cons] at h2
              omega
        · have hf : wsCommaArtHead X (c :: rest) = false := by
            revert hm
            cases wsCommaArtHead X (c :: rest) <;> simp
          rw [subCommaArtAux_step_nomatch hf, subCommaArtAux_step_nomatch hf]
          congr 1
          apply ih
          · simp only [List.length_cons] at h1
            omega
          · simp only [List.length_cons] at h2
            omega

theorem subCommaArtAux_no_comma {X : List Char} :
    ∀ (s : List Char) (fuel : Nat), ',' ∉ s → s.length ≤ fuel →
      subCommaArtAux X fuel s = s := by
  intro s
  induction s with
  | nil => intro fuel _ _; exact subCommaArtAux_nil X fuel
  | cons c rest ih =>
    intro fuel h hf
    simp only [List.mem_cons, not_or] at h
    cases fuel with
    | zero => simp at hf
    | succ n =>
      rw [subCommaArtAux_step_nomatch (wsHead_head_ne (fun hh => h.1 hh.symm)) n]
      rw [ih n h.2 (by simp at hf; omega)]

/-- The scanner passes over a match-free region unchanged. -/
theorem subCommaArtAux_pass {X : List Char} :
    ∀ (a z : List Char) (fuel : Nat),
      (∀ p, p < a.length → wsCommaArtHead X ((a ++ z).drop p) = false) →
      (a ++ z).length ≤ fuel →
      subCommaArtAux X fuel (a ++ z) = a ++ subCommaArtAux X z.length z := by
  intro a
  induction a with
  | nil =>
    intro z fuel _ hf
    simp only [List.nil_append] at hf ⊢
    exact subCommaArtAux_fuel fuel z z.length hf (Nat.le_refl _)
  | cons c a' ih =>
    intro z fuel hnm hf
    cases fuel with
    | zero => simp at hf
    | succ n =>
      have h0 : wsCommaArtHead X (c :: (a' ++ z)) = false := by
        have := hnm 0 (by simp)
        simpa using this
      rw [List.cons_append, subCommaArtAux_step_nomatch h0 n]
      rw [ih z n (fun p hp => by
        have := hnm (p + 1) (by simp; omega)
        simpa using this) (by simp at hf ⊢; omega)]
      rfl

/-- The designed comma-article substitution: with no match inside the body,
`re.sub(",\sX\.", ".", body ++ ", X." ++ E)` collapses the article text to
the extension separator. -/
theorem subCommaArt_designed {X body E : List Char}
    (hbody : ∀ p, p < body.length →
      wsCommaArtHead X ((body ++ ',' :: ' ' :: (X ++ '.' :: E)).drop p) = false)
    (hEC : ',' ∉ E) :
    subCommaArt X (body ++ ',' :: ' ' :: (X ++ '.' :: E)) = body ++ '.' :: E := by
  rw [subCommaArt, subCommaArtAux_pass body (',' :: ' ' :: (X ++ '.' :: E)) _ hbody
    (Nat.le_refl _)]
  congr 1
  simp only [List.length_cons]
  rw [subCommaArtAux]
  simp only [if_pos rfl]
  have hbw : beginsWith (X ++ '.' :: E) (X ++ ['.']) = true := by
    rw [show X ++ '.' :: E = (X ++ ['.']) ++ E by simp]
    exact beginsWith_append_self _ _
  have hdrop : (X ++ '.' :: E).drop (X.length + 1) = E := by
    rw [show X ++ '.' :: E = (X ++ ['.']) ++ E by simp]
    rw [show X.length + 1 = (X ++ ['.']).length by simp]
    exact List.drop_left _ _
  rw [hdrop, subCommaArtAux_no_comma E _ hEC
    (by simp only [List.length_append, List.length_cons]; omega)]
  simp [isSpaceChar, hbw]

theorem notMem_cons {c d : Char} {E : List Char} (h1 : c ≠ d) (h2 : c ∉ E) :
    c ∉ d :: E := fun hm => (List.mem_cons.mp hm).elim h1 h2

theorem notMem_append {c : Char} {a b : List Char} (h1 : c ∉ a) (h2 : c ∉ b) :
    c ∉ a ++ b := fun hm => (List.mem_append.mp hm).elim h1 h2

theorem sepAt_char {r : List Char} {q : Nat} (h : sepAt r q = true) :
    q + 2 < r.length ∧ isSpaceChar (charAt r q) = true ∧ charAt r (q + 1) = '-' ∧
      isSpaceChar (charAt r (q + 2)) = true := by
  rw [sepAt] at h
  simp only [Bool.and_eq_true, decide_eq_true_eq] at h
  exact ⟨h.1.1.1, h.1.1.2, h.1.2, h.2⟩

theorem charAt3_mid (P : List Char) {T : List Char} (Z : List Char) {pos : Nat}
    (h1 : P.length ≤ pos) (h2 : pos < P.length + T.length) :
    charAt (P ++ (T ++ Z)) pos = charAt T (pos - P.length) := by
  conv_lhs => rw [show pos = P.length + (pos - P.length) from by omega]
  rw [charAt_append_right, charAt_append_left (by omega : pos - P.length < T.length)]

theorem charAt3_right (P T : List Char) {Z : List Char} (pos : Nat)
    (h1 : P.length + T.length ≤ pos) :
    charAt (P ++ (T ++ Z)) pos = charAt Z (pos - P.length - T.length) := by
  conv_lhs =>
    rw [show pos = P.length + (T.length + (pos - P.length - T.length)) from by omega]
  rw [charAt_append_right, charAt_append_right]

theorem sepAt_false_of_hasSepPat {T : List Char} (h : hasSepPat T = false) :
    ∀ p, sepAt T p = false := by
  intro p
  by_cases hp : p < T.length
  · have h2 : firstIdx (fun q => sepAt T q) 0 T.length = none := by
      rw [hasSepPat] at h
      exact Option.not_isSome_iff_eq_none.mp (by simp [h])
    rw [firstIdx_eq_none_iff] at h2
    exact h2 p (Nat.zero_le p) (by omega)
  · rw [sepAt]
    simp [show ¬(p + 2 < T.length) by omega]

/-- No `\s-\s` occurrence anywhere in a name of shape `P ++ T ++ Z` where
`P` is dash-free, `T` contains no separator and does not start with
dash-whitespace, and `Z` is dash-free and does not start with whitespace. -/
theorem sep_noop {P T Z : List Char} (hP : '-' ∉ P)
    (hT1 : hasSepPat T = false) (hT2 : startsDashSpace T = false)
    (hZs : isSpaceChar (charAt Z 0) = false) (hZd : '-' ∉ Z) :
    ∀ q, sepAt (P ++ (T ++ Z)) q = false := by
  intro q
  by_contra hc
  have hm : sepAt (P ++ (T ++ Z)) q = true := by
    revert hc
    cases sepAt (P ++ (T ++ Z)) q <;> simp
  obtain ⟨hlen, hsp1, hdash, hsp2⟩ := sepAt_char hm
  rw [List.length_append, List.length_append] at hlen
  rcases Nat.lt_or_ge (q + 1) P.length with hA | hA
  · rw [charAt_append_left hA] at hdash
    exact hP (hdash ▸ charAt_mem hA)
  rcases Nat.lt_or_ge (q + 1) (P.length + T.length) with hB | hC
  · rw [charAt3_mid P Z hA hB] at hdash
    rcases Nat.eq_or_lt_of_le hA with hq1 | hq1
    · -- the dash is the first character of the title segment
      have ht0 : charAt T 0 = '-' := by
        rw [← hdash]
        congr 1
        omega
      rcases Nat.lt_or_ge (q + 2) (P.length + T.length) with h2 | h2
      · rw [charAt3_mid P Z (by omega) h2] at hsp2
        have hT1ch : isSpaceChar (charAt T 1) = true := by
          rwa [show q + 2 - P.length = 1 from by omega] at hsp2
        rw [startsDashSpace, ht0, hT1ch] at hT2
        simp at hT2
      · rw [charAt3_right P T _ h2] at hsp2
        rw [show q + 2 - P.length - T.length = 0 from by omega] at hsp2
        rw [hsp2] at hZs
        exact absurd hZs (by decide)
    · -- the dash is at title offset t with t ≥ 1
      have ht2 : q + 1 - P.length < T.length := by omega
      rcases Nat.lt_or_ge (q + 2) (P.length + T.length) with hin | hbd
      · have e0 : isSpaceChar (charAt T (q - P.length)) = true := by
          rw [charAt3_mid P Z (by omega) (by omega)] at hsp1
          exact hsp1
        have e2 : isSpaceChar (charAt T (q + 2 - P.length)) = true := by
          rw [charAt3_mid P Z (by omega) hin] at hsp2
          exact hsp2
        have hsep : sepAt T (q - P.length) = true := by
          rw [sepAt]
          simp only [Bool.and_eq_true, decide_eq_true_eq]
          refine ⟨⟨⟨by omega, e0⟩, ?_⟩, ?_⟩
          · rw [show q - P.length + 1 = q + 1 - P.length from by omega]
            exact hdash
          · rw [show q - P.length + 2 = q + 2 - P.length from by omega]
            exact e2
        rw [sepAt_false_of_hasSepPat hT1 (q - P.length)] at hsep
        exact Bool.false_ne_true hsep
      · rw [charAt3_right P T _ hbd] at hsp2
        rw [show q + 2 - P.length - T.length = 0 from by omega] at hsp2
        rw [hsp2] at hZs
        exact absurd hZs (by decide)
  · have hj : q + 1 - P.length - T.length < Z.length := by omega
    rw [charAt3_right P T _ hC] at hdash
    exact hZd (hdash ▸ charAt_mem hj)

theorem stripAuthors_noop {r : List Char} (h : ∀ q, sepAt r q = false) :
    stripAuthors r = r := by
  rw [stripAuthors]
  have hn : firstIdx (fun p => sepAt r p) 1 r.length = none := by
    rw [firstIdx_eq_none_iff]
    intro p _ _
    exact h p
  rw [hn]

/-- The author-strip pass removes exactly the `A ++ " - "` prefix when `A`
itself is separator-free, nonempty, and does not end in whitespace-dash. -/
theorem stripAuthors_designed {A R : List Char} (hA : A ≠ [])
    (h1 : hasSepPat A = false) (h2 : endsSpaceDash A = false) :
    stripAuthors (A ++ ' ' :: '-' :: ' ' :: R) = R := by
  set x := A ++ ' ' :: '-' :: ' ' :: R with hx
  have hAlen : 1 ≤ A.length := List.length_pos.mpr hA
  have hxlen : x.length = A.length + R.length + 3 := by
    simp [hx]
    omega
  have hmid : ∀ i, charAt x (A.length + i) = charAt (' ' :: '-' :: ' ' :: R) i := by
    intro i
    rw [hx]
    exact charAt_append_right A _ i
  have g0 : charAt x A.length = ' ' := by
    have h := hmid 0
    rw [Nat.add_zero, charAt_cons_zero] at h
    exact h
  have g1 : charAt x (A.length + 1) = '-' := by
    rw [hmid 1]
    simp [charAt]
  have g2 : charAt x (A.length + 2) = ' ' := by
    rw [hmid 2]
    simp [charAt]
  have hfA : sepAt x A.length = true := by
    rw [sepAt]
    simp only [Bool.and_eq_true, decide_eq_true_eq]
    refine ⟨⟨⟨by omega, ?_⟩, g1⟩, ?_⟩
    · rw [g0]
      decide
    · rw [g2]
      decide
  have hmin : ∀ q, 1 ≤ q → q < A.length → sepAt x q = false := by
    intro q hq1 hq2
    by_contra hc
    have hm : sepAt x q = true := by
      revert hc
      cases sepAt x q <;> simp
    obtain ⟨hlen, hsp1, hdash, hsp2⟩ := sepAt_char hm
    rcases Nat.lt_or_ge (q + 1) A.length with hB | hB
    · have hdA : charAt A (q + 1) = '-' := by
        rw [hx, charAt_append_left hB] at hdash
        exact hdash
      rcases Nat.lt_or_ge (q + 2) A.length with hC | hC
      · have hsep : sepAt A q = true := by
          rw [sepAt]
          simp only [Bool.and_eq_true, decide_eq_true_eq]
          refine ⟨⟨⟨hC, ?_⟩, hdA⟩, ?_⟩
          · rw [hx, charAt_append_left (by omega)] at hsp1
            exact hsp1
          · rw [hx, charAt_append_left hC] at hsp2
            exact hsp2
        rw [sepAt_false_of_hasSepPat h1 q] at hsep
        exact Bool.false_ne_true hsep
      · have he : q + 2 = A.length := by omega
        have e1 : isSpaceChar (charAt A (A.length - 2)) = true := by
          rw [show A.length - 2 = q from by omega]
          rw [hx, charAt_append_left (by omega)] at hsp1
          exact hsp1
        have e2 : charAt A (A.length - 1) = '-' := by
          rw [show A.length - 1 = q + 1 from by omega]
          exact hdA
        rw [endsSpaceDash, e1, e2] at h2
        simp at h2
        omega
    · have he : q + 1 = A.length := by omega
      rw [show q + 1 = A.length from he, g0] at hdash
      exact absurd hdash (by decide)
  have hfi : firstIdx (fun p => sepAt x p) 1 x.length = some A.length := by
    exact firstIdx_eq_some hAlen (by omega) hfA hmin
  rw [stripAuthors, hfi]
  show x.drop (A.length + 3) = R
  rw [hx,
    show A ++ ' ' :: '-' :: ' ' :: R = (A ++ [' ', '-', ' ']) ++ R from by simp,
    show A.length + 3 = (A ++ [' ', '-', ' ']).length from by simp]
  exact List.drop_left _ _

theorem getLast_mem_of_eq : ∀ {z : List Char} {c : Char}, z.getLast? = some c →
    c ∈ z := by
  intro z
  induction z with
  | nil =>
    intro c h
    simp at h
  | cons a rest ih =>
    intro c h
    cases rest with
    | nil =>
      simp at h
      simp [h]
    | cons b r2 =>
      rw [List.getLast?_cons_cons] at h
      exact List.mem_cons_of_mem a (ih h)

theorem getLast_append_dotE {a E : List Char} (hE : '_' ∉ E) :
    (a ++ '.' :: E).getLast? ≠ some '_' := by
  intro hc
  rw [List.getLast?_append_of_ne_nil] at hc
  · have hm := getLast_mem_of_eq hc
    rcases List.mem_cons.mp hm with h | h
    · exact absurd h (by decide)
    · exact hE h
  · simp

/-- Window widths of the four recognized extensions. -/
theorem extLen : ∀ e ∈ fourExts, e.length ≤ 4 := by decide

/-- No `,\sX\.` match starts inside the region `T ++ "_ " ++ S` when a
comma follows it (the body of the subtitle shapes). -/
theorem noWs_bounded_sub {X T S : List Char} (tr : List Char)
    (hXall : ∀ j, j < X.length → isLetterChar (charAt X j) = true)
    (hT : hasCommaArt X (T ++ ['.']) = false)
    (hS : hasCommaArt X (S ++ ['.']) = false) :
    ∀ p, p < (T ++ '_' :: ' ' :: S).length →
      wsCommaArtHead X
        (((T ++ '_' :: ' ' :: S) ++ ',' :: ' ' :: tr).drop p) = false := by
  intro p hp
  rw [show (T ++ '_' :: ' ' :: S) ++ ',' :: ' ' :: tr
      = T ++ '_' :: ' ' :: (S ++ ',' :: ' ' :: tr) from by simp]
  simp only [List.length_append, List.length_cons] at hp
  rcases Nat.lt_or_ge p T.length with h1 | h1
  · exact noWs_seg_region hXall hT (by decide) (by decide) p h1
  rcases Nat.eq_or_lt_of_le h1 with h2 | h2
  · subst h2
    rw [List.drop_left]
    exact wsHead_head_ne (by decide)
  · rcases Nat.lt_or_ge p (T.length + 2) with h3 | h3
    · have hp1 : p = T.length + 1 := by omega
      subst hp1
      have hd : (T ++ '_' :: ' ' :: (S ++ ',' :: ' ' :: tr)).drop (T.length + 1)
          = ' ' :: (S ++ ',' :: ' ' :: tr) := by
        have := drop_append_add T ('_' :: ' ' :: (S ++ ',' :: ' ' :: tr)) 1
        simpa using this
      rw [hd]
      exact wsHead_head_ne (by decide)
    · have hq : p - T.length - 2 < S.length := by omega
      have hd : (T ++ '_' :: ' ' :: (S ++ ',' :: ' ' :: tr)).drop p
          = (S ++ ',' :: ' ' :: tr).drop (p - T.length - 2) := by
        conv_lhs => rw [show p = T.length + (2 + (p - T.length - 2)) from by omega]
        rw [drop_append_add,
          show 2 + (p - T.length - 2) = p - T.length - 2 + 1 + 1 from by omega,
          List.drop_succ_cons, List.drop_succ_cons]
      rw [hd]
      exact noWs_seg_region hXall hS (by decide) (by decide) _ hq

/-- Evaluation of the per-book rewrite when all three article tests fail. -/
theorem woaName_eval {book y : List Char}
    (hstrip : stripAuthors book = y)
    (h1 : artEndTest artA 9 y = false)
    (h2 : artEndTest artAn 10 y = false)
    (h3 : artEndTest artThe 11 y = false)
    {r : List Char}
    (hsub : stripSubtitle y = r)
    (hlast : r.getLast? ≠ some '_') :
    woaName book = r := by
  simp only [woaName, hstrip, h1, h2, h3, Bool.false_eq_true, if_false, hsub]
  rw [if_neg hlast]

/-- Evaluation of the per-book rewrite when the `", A."` test fires. -/
theorem woaName_eval_A {book y : List Char}
    (hstrip : stripAuthors book = y)
    (h1 : artEndTest artA 9 y = true)
    {r : List Char}
    (hrest : stripSubtitle (subCommaArt artA y) = r)
    (hlast : (artA ++ ' ' :: r).getLast? ≠ some '_') :
    woaName book = artA ++ ' ' :: r := by
  simp only [woaName, hstrip, h1, eq_self_iff_true, if_true, hrest]
  rw [if_neg hlast]

/-- Evaluation of the per-book rewrite when the `", An."` test fires after
the `", A."` test fails. -/
theorem woaName_eval_An {book y : List Char}
    (hstrip : stripAuthors book = y)
    (h1 : artEndTest artA 9 y = false)
    (h2 : artEndTest artAn 10 y = true)
    {r : List Char}
    (hrest : stripSubtitle (subCommaArt artAn y) = r)
    (hlast : (artAn ++ ' ' :: r).getLast? ≠ some '_') :
    woaName book = artAn ++ ' ' :: r := by
  simp only [woaName, hstrip, h1, h2, Bool.false_eq_true, if_false,
    eq_self_iff_true, if_true, hrest]
  rw [if_neg hlast]

/-- Evaluation of the per-book rewrite when the `", The."` test fires after
the `", A."` and `", An."` tests fail. -/
theorem woaName_eval_The {book y : List Char}
    (hstrip : stripAuthors book = y)
    (h1 : artEndTest artA 9 y = false)
    (h2 : artEndTest artAn 10 y = false)
    (h3 : artEndTest artThe 11 y = true)
    {r : List Char}
    (hrest : stripSubtitle (subCommaArt artThe y) = r)
    (hlast : (artThe ++ ' ' :: r).getLast? ≠ some '_') :
    woaName book = artThe ++ ' ' :: r := by
  simp only [woaName, hstrip, h1, h2, h3, Bool.false_eq_true, if_false,
    eq_self_iff_true, if_true, hrest]
  rw [if_neg hlast]

/-- Shape `T ++ '.' :: E` is a fixed point of the per-book rewrite. -/
theorem woaName_fix0 {T E : List Char}
    (hT1 : hasSepPat T = false) (hT2 : startsDashSpace T = false)
    (hTu : '_' ∉ T)
    (hTA : ∀ X ∈ engArts, hasCommaArt X (T ++ ['.']) = false)
    (hEC : ',' ∉ E) (hEu : '_' ∉ E) (hEd : '-' ∉ E) :
    woaName (T ++ '.' :: E) = T ++ '.' :: E := by
  have hstrip : stripAuthors (T ++ '.' :: E) = T ++ '.' :: E := by
    apply stripAuthors_noop
    intro q
    exact sep_noop (P := []) (by simp) hT1 hT2
      (by rw [charAt_cons_zero]; decide) (notMem_cons (by decide) hEd) q
  have htest : ∀ X ∈ engArts, ∀ k, artEndTest X k (T ++ '.' :: E) = false := by
    intro X hX k
    exact artEndTest_false_of_noWs k (noWs_y0 (engFacts X hX).1 (hTA X hX) hEC)
  have hsub : stripSubtitle (T ++ '.' :: E) = T ++ '.' :: E :=
    stripSubtitle_no_underscore (notMem_append hTu (notMem_cons (by decide) hEu))
  exact woaName_eval hstrip (htest artA (by decide) 9) (htest artAn (by decide) 10)
    (htest artThe (by decide) 11) hsub (getLast_append_dotE hEu)

/-- Shape `Xp ++ ' ' :: (T ++ '.' :: E)` (relocated English article) is a
fixed point of the per-book rewrite. -/
theorem woaName_fix1 {Xp T E : List Char} (hXp : Xp ∈ engArts)
    (hT1 : hasSepPat T = false) (hT2 : startsDashSpace T = false)
    (hTu : '_' ∉ T)
    (hTA : ∀ X ∈ engArts, hasCommaArt X (T ++ ['.']) = false)
    (hEC : ',' ∉ E) (hEu : '_' ∉ E) (hEd : '-' ∉ E) :
    woaName (Xp ++ ' ' :: (T ++ '.' :: E)) = Xp ++ ' ' :: (T ++ '.' :: E) := by
  obtain ⟨hXall0, hXpC, hXpU, hXpD, _⟩ := engFacts Xp hXp
  have hstrip : stripAuthors (Xp ++ ' ' :: (T ++ '.' :: E))
      = Xp ++ ' ' :: (T ++ '.' :: E) := by
    apply stripAuthors_noop
    intro q
    rw [show Xp ++ ' ' :: (T ++ '.' :: E)
        = (Xp ++ [' ']) ++ (T ++ '.' :: E) from by simp]
    exact sep_noop (notMem_append hXpD (by decide)) hT1 hT2
      (by rw [charAt_cons_zero]; decide) (notMem_cons (by decide) hEd) q
  have htest : ∀ X ∈ engArts, ∀ k,
      artEndTest X k (Xp ++ ' ' :: (T ++ '.' :: E)) = false := by
    intro X hX k
    exact artEndTest_false_of_noWs k
      (noWs_r1 (engFacts X hX).1 hXpC (hTA X hX) hEC)
  have hsub : stripSubtitle (Xp ++ ' ' :: (T ++ '.' :: E))
      = Xp ++ ' ' :: (T ++ '.' :: E) :=
    stripSubtitle_no_underscore
      (notMem_append hXpU (notMem_cons (by decide)
        (notMem_append hTu (notMem_cons (by decide) hEu))))
  have hlast : (Xp ++ ' ' :: (T ++ '.' :: E)).getLast? ≠ some '_' := by
    rw [show Xp ++ ' ' :: (T ++ '.' :: E) = (Xp ++ ' ' :: T) ++ '.' :: E from by simp]
    exact getLast_append_dotE hEu
  exact woaName_eval hstrip (htest artA (by decide) 9) (htest artAn (by decide) 10)
    (htest artThe (by decide) 11) hsub hlast

/-- Shape `T ++ ", Xa." ++ E` (retained non-English article) is a fixed
point of the per-book rewrite. -/
theorem woaName_fix2 {T Xa E : List Char} (hXa : Xa ∈ articleTable)
    (hne : Xa ∉ engArts)
    (hT1 : hasSepPat T = false) (hT2 : startsDashSpace T = false)
    (hTu : '_' ∉ T)
    (hTA : ∀ X ∈ engArts, hasCommaArt X (T ++ ['.']) = false)
    (hEC : ',' ∉ E) (hEu : '_' ∉ E) (hEd : '-' ∉ E) :
    woaName (T ++ ',' :: ' ' :: (Xa ++ '.' :: E))
      = T ++ ',' :: ' ' :: (Xa ++ '.' :: E) := by
  obtain ⟨hXaC, hXaD, hXaU, hXaDot, hXane⟩ := tableFacts Xa hXa
  have hstrip : stripAuthors (T ++ ',' :: ' ' :: (Xa ++ '.' :: E))
      = T ++ ',' :: ' ' :: (Xa ++ '.' :: E) := by
    apply stripAuthors_noop
    intro q
    exact sep_noop (P := []) (by simp) hT1 hT2
      (by rw [charAt_cons_zero]; decide)
      (notMem_cons (by decide) (notMem_cons (by decide)
        (notMem_append hXaD (notMem_cons (by decide) hEd)))) q
  have htest : ∀ X ∈ engArts, ∀ k,
      artEndTest X k (T ++ ',' :: ' ' :: (Xa ++ '.' :: E)) = false := by
    intro X hX k
    have hclash : beginsWith (Xa ++ '.' :: E) (X ++ ['.']) = false :=
      clash_beginsWith_false Xa X E
        (tableClashDec Xa hXa X hX (fun he => hne (by rw [he]; exact hX)))
    exact artEndTest_false_of_noWs k
      (noWs_y2 (engFacts X hX).1 (hTA X hX) hclash hXaC hEC)
  have hsub : stripSubtitle (T ++ ',' :: ' ' :: (Xa ++ '.' :: E))
      = T ++ ',' :: ' ' :: (Xa ++ '.' :: E) :=
    stripSubtitle_no_underscore
      (notMem_append hTu (notMem_cons (by decide) (notMem_cons (by decide)
        (notMem_append hXaU (notMem_cons (by decide) hEu)))))
  have hlast : (T ++ ',' :: ' ' :: (Xa ++ '.' :: E)).getLast? ≠ some '_' := by
    rw [show T ++ ',' :: ' ' :: (Xa ++ '.' :: E)
        = (T ++ ',' :: ' ' :: Xa) ++ '.' :: E from by simp]
    exact getLast_append_dotE hEu
  exact woaName_eval hstrip (htest artA (by decide) 9) (htest artAn (by decide) 10)
    (htest artThe (by decide) 11) hsub hlast

/-- First application on the no-article no-subtitle shape. -/
theorem woaName_strip0 {book T E : List Char}
    (hstrip : stripAuthors book = T ++ '.' :: E)
    (hTA : ∀ X ∈ engArts, hasCommaArt X (T ++ ['.']) = false)
    (hTu : '_' ∉ T) (hEC : ',' ∉ E) (hEu : '_' ∉ E) :
    woaName book = T ++ '.' :: E := by
  have htest : ∀ X ∈ engArts, ∀ k, artEndTest X k (T ++ '.' :: E) = false := by
    intro X hX k
    exact artEndTest_false_of_noWs k (noWs_y0 (engFacts X hX).1 (hTA X hX) hEC)
  have hsub : stripSubtitle (T ++ '.' :: E) = T ++ '.' :: E :=
    stripSubtitle_no_underscore (notMem_append hTu (notMem_cons (by decide) hEu))
  exact woaName_eval hstrip (htest artA (by decide) 9) (htest artAn (by decide) 10)
    (htest artThe (by decide) 11) hsub (getLast_append_dotE hEu)

/-- First application on the subtitle no-article shape: the subtitle is
removed. -/
theorem woaName_strip1 {book T S E : List Char}
    (hstrip : stripAuthors book = T ++ '_' :: ' ' :: (S ++ '.' :: E))
    (hTA : ∀ X ∈ engArts, hasCommaArt X (T ++ ['.']) = false)
    (hSA : ∀ X ∈ engArts, hasCommaArt X (S ++ ['.']) = false)
    (hS : S ≠ [])
    (hTu : '_' ∉ T) (hEC : ',' ∉ E) (hEu : '_' ∉ E) (hEdot : '.' ∉ E) :
    woaName book = T ++ '.' :: E := by
  have htest : ∀ X ∈ engArts, ∀ k,
      artEndTest X k (T ++ '_' :: ' ' :: (S ++ '.' :: E)) = false := by
    intro X hX k
    exact artEndTest_false_of_noWs k
      (noWs_y1 (engFacts X hX).1 (hTA X hX) (hSA X hX) hEC)
  have hsub : stripSubtitle (T ++ '_' :: ' ' :: (S ++ '.' :: E)) = T ++ '.' :: E := by
    have := stripSubtitle_designed (T := T) (S := S) (Z := []) (E := E)
      hTu hS (by simp) hEdot
    simpa using this
  exact woaName_eval hstrip (htest artA (by decide) 9) (htest artAn (by decide) 10)
    (htest artThe (by decide) 11) hsub (getLast_append_dotE hEu)

/-- First application on the non-English-article no-subtitle shape: the
name passes through unchanged. -/
theorem woaName_strip2 {book T Xa E : List Char}
    (hXa : Xa ∈ articleTable) (hne : Xa ∉ engArts)
    (hstrip : stripAuthors book = T ++ ',' :: ' ' :: (Xa ++ '.' :: E))
    (hTA : ∀ X ∈ engArts, hasCommaArt X (T ++ ['.']) = false)
    (hTu : '_' ∉ T) (hEC : ',' ∉ E) (hEu : '_' ∉ E) :
    woaName book = T ++ ',' :: ' ' :: (Xa ++ '.' :: E) := by
  obtain ⟨hXaC, hXaD, hXaU, hXaDot, hXane⟩ := tableFacts Xa hXa
  have htest : ∀ X ∈ engArts, ∀ k,
      artEndTest X k (T ++ ',' :: ' ' :: (Xa ++ '.' :: E)) = false := by
    intro X hX k
    have hclash : beginsWith (Xa ++ '.' :: E) (X ++ ['.']) = false :=
      clash_beginsWith_false Xa X E
        (tableClashDec Xa hXa X hX (fun he => hne (by rw [he]; exact hX)))
    exact artEndTest_false_of_noWs k
      (noWs_y2 (engFacts X hX).1 (hTA X hX) hclash hXaC hEC)
  have hsub : stripSubtitle (T ++ ',' :: ' ' :: (Xa ++ '.' :: E))
      = T ++ ',' :: ' ' :: (Xa ++ '.' :: E) :=
    stripSubtitle_no_underscore
      (notMem_append hTu (notMem_cons (by decide) (notMem_cons (by decide)
        (notMem_append hXaU (notMem_cons (by decide) hEu)))))
  have hlast : (T ++ ',' :: ' ' :: (Xa ++ '.' :: E)).getLast? ≠ some '_' := by
    rw [show T ++ ',' :: ' ' :: (Xa ++ '.' :: E)
        = (T ++ ',' :: ' ' :: Xa) ++ '.' :: E from by simp]
    exact getLast_append_dotE hEu
  exact woaName_eval hstrip (htest artA (by decide) 9) (htest artAn (by decide) 10)
    (htest artThe (by decide) 11) hsub hlast

/-- First application on the subtitle + non-English-article shape: the
subtitle strip removes subtitle and article together. -/
theorem woaName_strip3 {book T S Xa E : List Char}
    (hXa : Xa ∈ articleTable) (hne : Xa ∉ engArts)
    (hstrip : stripAuthors book
      = T ++ '_' :: ' ' :: (S ++ ',' :: ' ' :: (Xa ++ '.' :: E)))
    (hTA : ∀ X ∈ engArts, hasCommaArt X (T ++ ['.']) = false)
    (hSA : ∀ X ∈ engArts, hasCommaArt X (S ++ ['.']) = false)
    (hS : S ≠ [])
    (hTu : '_' ∉ T) (hEC : ',' ∉ E) (hEu : '_' ∉ E) (hEdot : '.' ∉ E) :
    woaName book = T ++ '.' :: E := by
  obtain ⟨hXaC, hXaD, hXaU, hXaDot, hXane⟩ := tableFacts Xa hXa
  have htest : ∀ X ∈ engArts, ∀ k,
      artEndTest X k (T ++ '_' :: ' ' :: (S ++ ',' :: ' ' :: (Xa ++ '.' :: E)))
        = false := by
    intro X hX k
    have hclash : beginsWith (Xa ++ '.' :: E) (X ++ ['.']) = false :=
      clash_beginsWith_false Xa X E
        (tableClashDec Xa hXa X hX (fun he => hne (by rw [he]; exact hX)))
    exact artEndTest_false_of_noWs k
      (noWs_y3 (engFacts X hX).1 (hTA X hX) (hSA X hX) hclash hXaC hEC)
  have hsub : stripSubtitle (T ++ '_' :: ' ' :: (S ++ ',' :: ' ' :: (Xa ++ '.' :: E)))
      = T ++ '.' :: E := by
    have := stripSubtitle_designed (T := T) (S := S) (Z := ',' :: ' ' :: Xa) (E := E)
      hTu hS (notMem_cons (by decide) (notMem_cons (by decide) hXaDot)) hEdot
    rw [show (S ++ ',' :: ' ' :: Xa) ++ '.' :: E
        = S ++ ',' :: ' ' :: (Xa ++ '.' :: E) from by simp] at this
    exact this
  exact woaName_eval hstrip (htest artA (by decide) 9) (htest artAn (by decide) 10)
    (htest artThe (by decide) 11) hsub (getLast_append_dotE hEu)

/-- First application when the stripped name ends in an English
comma-article: the matching window test fires, the comma-article text is
replaced by the extension dot, and the article is prepended. -/
theorem woaName_stripE {book body E Xp : List Char}
    (hXp : Xp ∈ engArts)
    (hstrip : stripAuthors book = body ++ ',' :: ' ' :: (Xp ++ '.' :: E))
    (hbody1 : 1 ≤ body.length)
    (hbodyNo : ∀ p, p < body.length →
      wsCommaArtHead Xp ((body ++ ',' :: ' ' :: (Xp ++ '.' :: E)).drop p) = false)
    (hnoPrev : ∀ X ∈ engArts, X ≠ Xp →
      ∀ p, wsCommaArtHead X ((body ++ ',' :: ' ' :: (Xp ++ '.' :: E)).drop p) = false)
    {r : List Char}
    (hsub : stripSubtitle (body ++ '.' :: E) = r)
    (hElen : E.length ≤ 4) (hEC : ',' ∉ E)
    (hlast : (Xp ++ ' ' :: r).getLast? ≠ some '_') :
    woaName book = Xp ++ ' ' :: r := by
  have hfireT : artEndTest Xp (Xp.length + 8) (body ++ ',' :: ' ' :: (Xp ++ '.' :: E))
      = true := artEndTest_true_designed hbody1 hElen
  have hsubC : subCommaArt Xp (body ++ ',' :: ' ' :: (Xp ++ '.' :: E))
      = body ++ '.' :: E := subCommaArt_designed hbodyNo hEC
  have hfalse : ∀ X ∈ engArts, X ≠ Xp → ∀ k,
      artEndTest X k (body ++ ',' :: ' ' :: (Xp ++ '.' :: E)) = false := by
    intro X hX hne k
    exact artEndTest_false_of_noWs k (hnoPrev X hX hne)
  have hXp3 : Xp = artA ∨ Xp = artAn ∨ Xp = artThe := by
    simpa [engArts, List.mem_cons] using hXp
  rcases hXp3 with rfl | rfl | rfl
  · apply woaName_eval_A hstrip
    · rw [show (9 : Nat) = artA.length + 8 from by decide]
      exact hfireT
    · rw [hsubC]
      exact hsub
    · exact hlast
  · apply woaName_eval_An hstrip
    · exact hfalse artA (by decide) (by decide) 9
    · rw [show (10 : Nat) = artAn.length + 8 from by decide]
      exact hfireT
    · rw [hsubC]
      exact hsub
    · exact hlast
  · apply woaName_eval_The hstrip
    · exact hfalse artA (by decide) (by decide) 9
    · exact hfalse artAn (by decide) (by decide) 10
    · rw [show (11 : Nat) = artThe.length + 8 from by decide]
      exact hfireT
    · rw [hsubC]
      exact hsub
    · exact hlast

/-- **C8** (amended): for every filename matching the grammar
`<Authors> - <Title>[_ <Subtitle>][, <Article>].<ext>` whose title and
subtitle segments contain no English comma-article token (`", A"`, `", An"`,
`", The"`) followed by a dot — in particular do not themselves end in one —
the strip-to-title rewrite computed by `withoutAuthors` is idempotent.
(Without the extra condition the claim fails: `claim_C8_counterexample`.) -/
theorem claim_C8_amended (g : GrammarParts) (hwf : wellFormed g = true)
    (hok : amendedOk g = true) :
    woaName (woaName (assemble g)) = woaName (assemble g) := by
  obtain ⟨A, T, sub, art, E⟩ := g
  simp only [wellFormed, Bool.and_eq_true, Bool.not_eq_true',
    decide_eq_true_eq, ne_eq] at hwf
  obtain ⟨⟨⟨⟨⟨⟨⟨⟨⟨hA, hT⟩, hExt⟩, hA1⟩, hA2⟩, hT1⟩, hT2⟩, hTu0⟩, hartm⟩, hsubm⟩ := hwf
  have hEm : E ∈ fourExts := by simpa using hExt
  have hTu : '_' ∉ T := by simpa using hTu0
  obtain ⟨hEne, hEC, hEu, hEd, hEdot⟩ := extFacts E hEm
  have hElen : E.length ≤ 4 := extLen E hEm
  simp only [amendedOk, List.all_eq_true, Bool.and_eq_true, Bool.not_eq_true'] at hok
  have hTA : ∀ X ∈ engArts, hasCommaArt X (T ++ ['.']) = false :=
    fun X hX => (hok X hX).1
  cases art with
  | none =>
    cases sub with
    | none =>
      have hstrip : stripAuthors (assemble ⟨A, T, none, none, E⟩)
          = T ++ '.' :: E := by
        rw [show assemble ⟨A, T, none, none, E⟩
            = A ++ ' ' :: '-' :: ' ' :: (T ++ '.' :: E) from by
          simp [assemble, subtitlePart, articlePart]]
        exact stripAuthors_designed hA hA1 hA2
      have h1 : woaName (assemble ⟨A, T, none, none, E⟩) = T ++ '.' :: E :=
        woaName_strip0 hstrip hTA hTu hEC hEu
      rw [h1]
      exact woaName_fix0 hT1 hT2 hTu hTA hEC hEu hEd
    | some S =>
      have hS : S ≠ [] := by simpa using hsubm
      have hSA : ∀ X ∈ engArts, hasCommaArt X (S ++ ['.']) = false := by
        intro X hX
        simpa using (hok X hX).2
      have hstrip : stripAuthors (assemble ⟨A, T, some S, none, E⟩)
          = T ++ '_' :: ' ' :: (S ++ '.' :: E) := by
        rw [show assemble ⟨A, T, some S, none, E⟩
            = A ++ ' ' :: '-' :: ' ' :: (T ++ '_' :: ' ' :: (S ++ '.' :: E)) from by
          simp [assemble, subtitlePart, articlePart]]
        exact stripAuthors_designed hA hA1 hA2
      have h1 : woaName (assemble ⟨A, T, some S, none, E⟩) = T ++ '.' :: E :=
        woaName_strip1 hstrip hTA hSA hS hTu hEC hEu hEdot
      rw [h1]
      exact woaName_fix0 hT1 hT2 hTu hTA hEC hEu hEd
  | some Xa =>
    have hXam : Xa ∈ articleTable := by simpa using hartm
    by_cases hXe : Xa ∈ engArts
    · obtain ⟨hXall, hXpC, hXpU, hXpD, hXpT⟩ := engFacts Xa hXe
      have hnoPrevBase : ∀ X ∈ engArts, X ≠ Xa →
          beginsWith (Xa ++ '.' :: E) (X ++ ['.']) = false := by
        intro X hX hne
        exact clash_beginsWith_false Xa X E
          (tableClashDec Xa hXam X hX (fun he => hne he.symm))
      cases sub with
      | none =>
        have hstrip : stripAuthors (assemble ⟨A, T, none, some Xa, E⟩)
            = T ++ ',' :: ' ' :: (Xa ++ '.' :: E) := by
          rw [show assemble ⟨A, T, none, some Xa, E⟩
              = A ++ ' ' :: '-' :: ' ' :: (T ++ ',' :: ' ' :: (Xa ++ '.' :: E)) from by
            simp [assemble, subtitlePart, articlePart]]
          exact stripAuthors_designed hA hA1 hA2
        have hbNo : ∀ p, p < T.length →
            wsCommaArtHead Xa ((T ++ ',' :: ' ' :: (Xa ++ '.' :: E)).drop p) = false :=
          fun p hp => noWs_seg_region hXall (hTA Xa hXe) (by decide) (by decide) p hp
        have hnoPrev : ∀ X ∈ engArts, X ≠ Xa → ∀ p,
            wsCommaArtHead X ((T ++ ',' :: ' ' :: (Xa ++ '.' :: E)).drop p) = false :=
          fun X hX hne p =>
            noWs_y2 (engFacts X hX).1 (hTA X hX) (hnoPrevBase X hX hne) hXpC hEC p
        have hsubr : stripSubtitle (T ++ '.' :: E) = T ++ '.' :: E :=
          stripSubtitle_no_underscore
            (notMem_append hTu (notMem_cons (by decide) hEu))
        have hlast : (Xa ++ ' ' :: (T ++ '.' :: E)).getLast? ≠ some '_' := by
          rw [show Xa ++ ' ' :: (T ++ '.' :: E)
              = (Xa ++ ' ' :: T) ++ '.' :: E from by simp]
          exact getLast_append_dotE hEu
        have h1 : woaName (assemble ⟨A, T, none, some Xa, E⟩)
            = Xa ++ ' ' :: (T ++ '.' :: E) :=
          woaName_stripE hXe hstrip (List.length_pos.mpr hT) hbNo hnoPrev hsubr
            hElen hEC hlast
        rw [h1]
        exact woaName_fix1 hXe hT1 hT2 hTu hTA hEC hEu hEd
      | some S =>
        have hS : S ≠ [] := by simpa using hsubm
        have hSA : ∀ X ∈ engArts, hasCommaArt X (S ++ ['.']) = false := by
          intro X hX
          simpa using (hok X hX).2
        have hstrip : stripAuthors (assemble ⟨A, T, some S, some Xa, E⟩)
            = (T ++ '_' :: ' ' :: S) ++ ',' :: ' ' :: (Xa ++ '.' :: E) := by
          rw [show assemble ⟨A, T, some S, some Xa, E⟩
              = A ++ ' ' :: '-' :: ' ' ::
                ((T ++ '_' :: ' ' :: S) ++ ',' :: ' ' :: (Xa ++ '.' :: E)) from by
            simp [assemble, subtitlePart, articlePart]]
          exact stripAuthors_designed hA hA1 hA2
        have hb1 : 1 ≤ (T ++ '_' :: ' ' :: S).length := by
          simp only [List.length_append, List.length_cons]
          omega
        have hbNo := noWs_bounded_sub (X := Xa) (T := T) (S := S) (Xa ++ '.' :: E)
          hXall (hTA Xa hXe) (hSA Xa hXe)
        have hnoPrev : ∀ X ∈ engArts, X ≠ Xa → ∀ p,
            wsCommaArtHead X
              (((T ++ '_' :: ' ' :: S) ++ ',' :: ' ' :: (Xa ++ '.' :: E)).drop p)
              = false := by
          intro X hX hne p
          rw [show (T ++ '_' :: ' ' :: S) ++ ',' :: ' ' :: (Xa ++ '.' :: E)
              = T ++ '_' :: ' ' :: (S ++ ',' :: ' ' :: (Xa ++ '.' :: E)) from by simp]
          exact noWs_y3 (engFacts X hX).1 (hTA X hX) (hSA X hX)
            (hnoPrevBase X hX hne) hXpC hEC p
        have hsubr : stripSubtitle ((T ++ '_' :: ' ' :: S) ++ '.' :: E)
            = T ++ '.' :: E := by
          rw [show (T ++ '_' :: ' ' :: S) ++ '.' :: E
              = T ++ '_' :: ' ' :: (S ++ '.' :: E) from by simp]
          have := stripSubtitle_designed (T := T) (S := S) (Z := []) (E := E)
            hTu hS (by simp) hEdot
          simpa using this
        have hlast : (Xa ++ ' ' :: (T ++ '.' :: E)).getLast? ≠ some '_' := by
          rw [show Xa ++ ' ' :: (T ++ '.' :: E)
              = (Xa ++ ' ' :: T) ++ '.' :: E from by simp]
          exact getLast_append_dotE hEu
        have h1 : woaName (assemble ⟨A, T, some S, some Xa, E⟩)
            = Xa ++ ' ' :: (T ++ '.' :: E) :=
          woaName_stripE hXe hstrip hb1 hbNo hnoPrev hsubr hElen hEC hlast
        rw [h1]
        exact woaName_fix1 hXe hT1 hT2 hTu hTA hEC hEu hEd
    · cases sub with
      | none =>
        have hstrip : stripAuthors (assemble ⟨A, T, none, some Xa, E⟩)
            = T ++ ',' :: ' ' :: (Xa ++ '.' :: E) := by
          rw [show assemble ⟨A, T, none, some Xa, E⟩
              = A ++ ' ' :: '-' :: ' ' :: (T ++ ',' :: ' ' :: (Xa ++ '.' :: E)) from by
            simp [assemble, subtitlePart, articlePart]]
          exact stripAuthors_designed hA hA1 hA2
        have h1 : woaName (assemble ⟨A, T, none, some Xa, E⟩)
            = T ++ ',' :: ' ' :: (Xa ++ '.' :: E) :=
          woaName_strip2 hXam hXe hstrip hTA hTu hEC hEu
        rw [h1]
        exact woaName_fix2 hXam hXe hT1 hT2 hTu hTA hEC hEu hEd
      | some S =>
        have hS : S ≠ [] := by simpa using hsubm
        have hSA : ∀ X ∈ engArts, hasCommaArt X (S ++ ['.']) = false := by
          intro X hX
          simpa using (hok X hX).2
        have hstrip : stripAuthors (assemble ⟨A, T, some S, some Xa, E⟩)
            = T ++ '_' :: ' ' :: (S ++ ',' :: ' ' :: (Xa ++ '.' :: E)) := by
          rw [show assemble ⟨A, T, some S, some Xa, E⟩
              = A ++ ' ' :: '-' :: ' ' ::
                (T ++ '_' :: ' ' :: (S ++ ',' :: ' ' :: (Xa ++ '.' :: E))) from by
            simp [assemble, subtitlePart, articlePart]]
          exact stripAuthors_designed hA hA1 hA2
        have h1 : woaName (assemble ⟨A, T, some S, some Xa, E⟩) = T ++ '.' :: E :=
          woaName_strip3 hXam hXe hstrip hTA hSA hS hTu hEC hEu hEdot
        rw [h1]
        exact woaName_fix0 hT1 hT2 hTu hTA hEC hEu hEd

/-- **C8** (counterexample to the unamended claim): the grammar filename
`"Smith - Duel, The, The.epub"` (authors `"Smith"`, title `"Duel, The"`, no
subtitle, article `"The"`) is well-formed, yet one strip-to-title
application yields `"The Duel, The.epub"` and a second yields
`"The The Duel.epub"` — the rewrite is not idempotent on it. -/
theorem claim_C8_counterexample :
    wellFormed ⟨"Smith".data, "Duel, The".data, none, some artThe, "epub".data⟩
        = true ∧
      woaName (woaName (assemble
          ⟨"Smith".data, "Duel, The".data, none, some artThe, "epub".data⟩)) ≠
        woaName (assemble
          ⟨"Smith".data, "Duel, The".data, none, some artThe, "epub".data⟩) := by
  decide

/-- Witness: the amended idempotence theorem applies to the grammar name
`"Smith, John - Great War_ A History, The.epub"`. -/
theorem claim_C8_amended_witness :
    wellFormed ⟨"Smith, John".data, "Great War".data, some "A History".data,
        some artThe, "epub".data⟩ = true ∧
      amendedOk ⟨"Smith, John".data, "Great War".data, some "A History".data,
        some artThe, "epub".data⟩ = true ∧
      woaName (woaName (assemble ⟨"Smith, John".data, "Great War".data,
          some "A History".data, some artThe, "epub".data⟩)) =
        woaName (assemble ⟨"Smith, John".data, "Great War".data,
          some "A History".data, some artThe, "epub".data⟩) :=
  ⟨by decide, by decide,
    claim_C8_amended ⟨"Smith, John".data, "Great War".data, some "A History".data,
      some artThe, "epub".data⟩ (by decide) (by decide)⟩

end EBook
